import Mathlib

/-!
Verification of the polynomial-ring and FRI core of the `twenty-first` repository.

The Rust code is shallowly embedded: a polynomial (`Polynomial<FF>` in
`math/polynomial.rs`) is its coefficient vector, modelled as a `List F` over an
abstract field `F`; every algorithm of the source is translated into an
executable Lean function on such lists.  The semantic bridge `toPoly` maps a
coefficient list to Mathlib's `Polynomial F`, which is used to state and prove
the algebraic facts.  `BFieldElement::primitive_root_of_unity` is modelled as
an abstract root provider `F`-valued function together with primitivity
hypotheses, since the concrete base field is external to the analysed files.

The NTT/INTT primitive lives in `math/ntt.rs`, which is not among the analysed
source files; it is modelled from the specification (section "Transform"): the
forward transform of a length-`n` vector is the vector of evaluations at the
powers of the supplied root, and the inverse transform is the conjugate
transform scaled by `n⁻¹`.
-/

namespace TwentyFirst

variable {F : Type} [Field F] [DecidableEq F]

/-- Drop trailing zero coefficients; this is `Polynomial::normalize` from
`math/polynomial.rs`, as a pure function. -/
def trim (p : List F) : List F :=
  (p.reverse.dropWhile (fun c => decide (c = 0))).reverse

/-- The forward walk behind `degree`: one plus the index of the last non-zero
coefficient, `0` when there is none.  The conditional settles each
coefficient before the walk moves on, so concrete runs evaluate front to
back. -/
def last_nonzero_len : List F → ℕ → ℕ → ℕ
  | [], _, best => best
  | v :: rest, idx, best =>
      if v = 0 then last_nonzero_len rest (idx + 1) best
      else last_nonzero_len rest (idx + 1) (idx + 1)

/-- Source `Polynomial::degree`: the highest index holding a non-zero
coefficient, `-1` for the zero polynomial.  The source walks from the back;
the walk above finds the same index walking forward (`degree_def` proves it
equal to the trim-based characterization). -/
def degree (p : List F) : ℤ :=
  (last_nonzero_len p 0 0 : ℤ) - 1

theorem trim_cons_of_ne_nil (v : F) (rest : List F) (h : trim rest ≠ []) :
    trim (v :: rest) = v :: trim rest := by
  rw [trim, List.reverse_cons, List.dropWhile_append]
  have hne : ¬(rest.reverse.dropWhile (fun c => decide (c = 0))).isEmpty := by
    intro hemp
    apply h
    rw [trim]
    rcases List.isEmpty_iff.mp hemp with h2
    rw [h2]
    rfl
  rw [if_neg hne, List.reverse_append]
  rfl

theorem trim_cons_of_nil (v : F) (rest : List F) (h : trim rest = []) :
    trim (v :: rest) = if v = 0 then [] else [v] := by
  rw [trim, List.reverse_cons, List.dropWhile_append]
  have hemp : (rest.reverse.dropWhile (fun c => decide (c = 0))).isEmpty := by
    rw [List.isEmpty_iff]
    rw [trim] at h
    exact List.reverse_eq_nil_iff.mp h
  rw [if_pos hemp]
  by_cases hv : v = 0
  · rw [if_pos hv]
    simp [List.dropWhile_cons, hv]
  · rw [if_neg hv]
    simp [List.dropWhile_cons, hv]

theorem last_nonzero_len_go (p : List F) :
    ∀ (k m : ℕ), last_nonzero_len p k m
      = if (trim p).length = 0 then m else k + (trim p).length := by
  induction p with
  | nil => intro k m; simp [last_nonzero_len, trim]
  | cons v rest ih =>
      intro k m
      rw [last_nonzero_len]
      by_cases hrest : trim rest = []
      · have hlen : (trim rest).length = 0 := by rw [hrest]; rfl
        rw [trim_cons_of_nil v rest hrest]
        by_cases hv : v = 0
        · rw [if_pos hv, ih (k + 1) m, if_pos hlen, if_pos (by simp [hv])]
        · rw [if_neg hv, ih (k + 1) (k + 1), if_pos hlen, if_neg (by simp [hv])]
          rw [if_neg hv]
          simp only [List.length_cons, List.length_nil]
      · have h1 : (trim rest).length ≠ 0 := by
          intro h0
          exact hrest (List.eq_nil_of_length_eq_zero h0)
        rw [trim_cons_of_ne_nil v rest hrest]
        by_cases hv : v = 0
        · rw [if_pos hv, ih (k + 1) m, if_neg h1, if_neg (by simp)]
          simp only [List.length_cons]
          omega
        · rw [if_neg hv, ih (k + 1) (k + 1), if_neg h1, if_neg (by simp)]
          simp only [List.length_cons]
          omega

/-- The back-walking characterization of `degree`. -/
theorem degree_def (p : List F) : degree p = ((trim p).length : ℤ) - 1 := by
  rw [degree, last_nonzero_len_go p 0 0]
  by_cases h : (trim p).length = 0
  · rw [if_pos h, h]
  · rw [if_neg h]
    omega

/-- Source `impl PartialEq for Polynomial`: equal canonical degrees, and all
index-wise-zipped coefficient pairs equal. -/
def polyEq (p q : List F) : Bool :=
  decide (degree p = degree q) && (p.zip q).all (fun c => decide (c.1 = c.2))

/-- Source `Polynomial::evaluate`: Horner's rule from the top coefficient
down. -/
def evaluate (p : List F) (x : F) : F :=
  p.foldr (fun c acc => c + x * acc) 0

/-- Semantic bridge: the Mathlib polynomial denoted by a coefficient list. -/
def toPoly (p : List F) : Polynomial F :=
  ⟨p.toFinsupp⟩

theorem coeff_toPoly (p : List F) (n : ℕ) : (toPoly p).coeff n = p.getD n 0 := rfl

theorem toPoly_nil : toPoly ([] : List F) = 0 := by
  apply Polynomial.ext
  intro n
  simp [coeff_toPoly]

theorem toPoly_eq_iff (p q : List F) :
    toPoly p = toPoly q ↔ ∀ n, p.getD n 0 = q.getD n 0 := by
  constructor
  · intro h n
    rw [← coeff_toPoly, ← coeff_toPoly, h]
  · intro h
    apply Polynomial.ext
    intro n
    rw [coeff_toPoly, coeff_toPoly]
    exact h n

theorem toPoly_cons (c : F) (p : List F) : toPoly (c :: p) = Polynomial.C c + Polynomial.X * toPoly p := by
  apply Polynomial.ext
  intro n
  rw [coeff_toPoly]
  cases n with
  | zero => simp [coeff_toPoly]
  | succ m => simp [Polynomial.coeff_X_mul, coeff_toPoly]

/-- Horner evaluation agrees with Mathlib's `Polynomial.eval`. -/
theorem evaluate_eq_eval (p : List F) (x : F) : evaluate p x = (toPoly p).eval x := by
  induction p with
  | nil => simp [evaluate, toPoly_nil]
  | cons c q ih =>
      rw [toPoly_cons]
      simp only [Polynomial.eval_add, Polynomial.eval_C, Polynomial.eval_mul, Polynomial.eval_X]
      rw [← ih]
      simp [evaluate, mul_comm]

theorem trim_spec (p : List F) :
    ∃ zs : List F, p = trim p ++ zs ∧ ∀ c ∈ zs, c = 0 := by
  refine ⟨(p.reverse.takeWhile (fun c => decide (c = 0))).reverse, ?_, ?_⟩
  · have h1 : p = ((p.reverse.takeWhile (fun c => decide (c = 0))) ++
        (p.reverse.dropWhile (fun c => decide (c = 0)))).reverse := by
      rw [List.takeWhile_append_dropWhile, List.reverse_reverse]
    conv_lhs => rw [h1]
    rw [List.reverse_append]
    rfl
  · intro c hc
    rw [List.mem_reverse] at hc
    have := List.mem_takeWhile_imp hc
    simpa using this

theorem trim_getLast_ne_zero (p : List F) (h : trim p ≠ []) :
    (trim p).getLast h ≠ 0 := by
  have hne : p.reverse.dropWhile (fun c => decide (c = 0)) ≠ [] := by
    simp only [trim] at h
    intro hcon
    apply h
    rw [hcon]
    rfl
  have hhead := List.head_dropWhile_not (fun c => decide (c = 0)) p.reverse hne
  have hlast : (trim p).getLast h =
      (p.reverse.dropWhile (fun c => decide (c = 0))).head hne := by
    simp only [trim]
    exact List.getLast_reverse _
  rw [hlast]
  intro hz
  rw [hz] at hhead
  simp at hhead

theorem getD_trim (p : List F) (n : ℕ) : (trim p).getD n 0 = p.getD n 0 := by
  obtain ⟨zs, hsplit, hz⟩ := trim_spec p
  conv_rhs => rw [hsplit]
  by_cases h : n < (trim p).length
  · rw [List.getD_append _ _ _ _ h]
  · push_neg at h
    rw [List.getD_eq_default _ _ h]
    rcases Nat.lt_or_ge n (trim p ++ zs).length with h2 | h2
    · rw [List.getD_eq_getElem _ _ h2]
      have : (trim p ++ zs)[n] ∈ zs := by
        rw [List.getElem_append_right h]
        apply List.getElem_mem
      exact (hz _ this).symm
    · rw [List.getD_eq_default _ _ h2]

theorem getD_eq_zero_of_trim_length_le (p : List F) (n : ℕ)
    (h : (trim p).length ≤ n) : p.getD n 0 = 0 := by
  rw [← getD_trim]
  exact List.getD_eq_default _ _ h

theorem trim_length_le_of_getD (p : List F) (n : ℕ) (h : p.getD n 0 ≠ 0) :
    n < (trim p).length := by
  by_contra hc
  push_neg at hc
  exact h (getD_eq_zero_of_trim_length_le p n hc)

theorem trim_eq_of_getD_eq (p q : List F) (h : ∀ n, p.getD n 0 = q.getD n 0) :
    trim p = trim q := by
  have hlen : (trim p).length = (trim q).length := by
    rcases Nat.lt_trichotomy (trim p).length (trim q).length with hlt | heq | hgt
    · exfalso
      have hne : trim q ≠ [] := by
        intro hcon
        rw [hcon] at hlt
        simp at hlt
      have hlast := trim_getLast_ne_zero q hne
      rw [List.getLast_eq_getElem] at hlast
      have hq : q.getD ((trim q).length - 1) 0 ≠ 0 := by
        rw [← getD_trim, List.getD_eq_getElem _ _ (by omega)]
        exact hlast
      rw [← h] at hq
      have := trim_length_le_of_getD p _ hq
      omega
    · exact heq
    · exfalso
      have hne : trim p ≠ [] := by
        intro hcon
        rw [hcon] at hgt
        simp at hgt
      have hlast := trim_getLast_ne_zero p hne
      rw [List.getLast_eq_getElem] at hlast
      have hp : p.getD ((trim p).length - 1) 0 ≠ 0 := by
        rw [← getD_trim, List.getD_eq_getElem _ _ (by omega)]
        exact hlast
      rw [h] at hp
      have := trim_length_le_of_getD q _ hp
      omega
  apply List.ext_getElem hlen
  intro n h1 h2
  have := h n
  rw [← getD_trim p, ← getD_trim q] at this
  rw [List.getD_eq_getElem _ _ h1, List.getD_eq_getElem _ _ h2] at this
  exact this

theorem toPoly_eq_iff_trim_eq (p q : List F) : toPoly p = toPoly q ↔ trim p = trim q := by
  rw [toPoly_eq_iff]
  constructor
  · exact trim_eq_of_getD_eq p q
  · intro h n
    rw [← getD_trim p, ← getD_trim q, h]

theorem polyEq_iff (p q : List F) : polyEq p q = true ↔ toPoly p = toPoly q := by
  rw [toPoly_eq_iff]
  rw [polyEq]
  simp only [Bool.and_eq_true, decide_eq_true_eq, List.all_eq_true]
  constructor
  · rintro ⟨hdeg, hzip⟩ n
    have hlen : (trim p).length = (trim q).length := by
      rw [degree_def, degree_def] at hdeg
      omega
    by_cases hn : n < (trim p).length
    · have hnp : n < p.length := by
        obtain ⟨zs, hsplit, _⟩ := trim_spec p
        have : (trim p).length ≤ p.length := by
          conv_rhs => rw [hsplit]
          simp
        omega
      have hnq : n < q.length := by
        obtain ⟨zs, hsplit, _⟩ := trim_spec q
        have : (trim q).length ≤ q.length := by
          conv_rhs => rw [hsplit]
          simp
        omega
      have hmem : (p[n], q[n]) ∈ p.zip q := by
        rw [List.mem_iff_getElem]
        refine ⟨n, by simp [hnp, hnq], ?_⟩
        simp
      have := hzip _ hmem
      rw [List.getD_eq_getElem _ _ hnp, List.getD_eq_getElem _ _ hnq]
      exact this
    · push_neg at hn
      rw [getD_eq_zero_of_trim_length_le p n hn,
        getD_eq_zero_of_trim_length_le q n (by omega)]
  · intro h
    have htrim := trim_eq_of_getD_eq p q h
    constructor
    · rw [degree_def, degree_def, htrim]
    · intro c hc
      rw [List.mem_iff_getElem] at hc
      obtain ⟨n, hn, hget⟩ := hc
      simp only [List.length_zip, lt_min_iff] at hn
      have : c.1 = p.getD n 0 ∧ c.2 = q.getD n 0 := by
        rw [← hget]
        constructor
        · simp [List.getD_eq_getElem, hn.1]
        · simp [List.getD_eq_getElem, hn.2]
      rw [this.1, this.2, h]

theorem polyEq_of_toPoly_eq {p q : List F} (h : toPoly p = toPoly q) : polyEq p q = true :=
  (polyEq_iff p q).2 h

theorem getD_append_replicate_zero (p : List F) (k n : ℕ) :
    (p ++ List.replicate k (0 : F)).getD n 0 = p.getD n 0 := by
  by_cases h : n < p.length
  · exact List.getD_append _ _ _ _ h
  · push_neg at h
    rw [List.getD_eq_default _ _ h]
    by_cases h2 : n < p.length + k
    · rw [List.getD_eq_getElem _ _ (by simp; omega)]
      rw [List.getElem_append_right h]
      simp
    · rw [List.getD_eq_default]
      simp
      omega

theorem toPoly_append_replicate_zero (p : List F) (k : ℕ) :
    toPoly (p ++ List.replicate k (0 : F)) = toPoly p := by
  rw [toPoly_eq_iff]
  intro n
  exact getD_append_replicate_zero p k n

/-- Source `impl Hash for Polynomial`: the exact data fed to the hasher is the
raw coefficient vector; Rust's `Vec` feeds its length followed by its
elements. -/
def hash_stream (p : List F) : ℕ × List F :=
  (p.length, p)

section WitnessField

instance : Fact (Nat.Prime 17) := ⟨by norm_num⟩

/-- C3: appending trailing zero coefficients never changes equality (`==`) —
this half of the claim holds — but the `Hash` implementation feeds the raw
coefficient vector (length included) to the hasher, so the padded polynomial
produces a different hash stream than the unpadded one: the claim's hash half
fails on the concrete input `p = [1]`, `k = 1`. -/
theorem C3_trailing_zero_hash :
    (∀ (G : Type) [Field G] [DecidableEq G] (p : List G) (k : ℕ),
      polyEq p (p ++ List.replicate k (0 : G)) = true) ∧
    polyEq [(1 : ZMod 17)] [1, 0] = true ∧
    hash_stream [(1 : ZMod 17)] ≠ hash_stream [1, 0] := by
  refine ⟨?_, by decide, by decide⟩
  intro G _ _ p k
  exact polyEq_of_toPoly_eq (toPoly_append_replicate_zero p k).symm

end WitnessField

/-! FRI round-count computation, from `shared_math/fri.rs`.

`log_2_ceil` lives in `shared_math/other.rs`, which is not among the analysed
source files. -/

/-- Modelled from the spec: `log_2_ceil` (from the missing `shared_math/other.rs`)
is the ceiling of the base-2 logarithm; `rounds = ceil(log2(max_degree + 1))`.
The fuel argument of the auxiliary recursion is always sufficient since
`n ≤ 2 ^ n`. -/
def log_2_ceil_rec : ℕ → ℕ → ℕ
  | 0, _ => 0
  | fuel+1, n => if n ≤ 1 then 0 else 1 + log_2_ceil_rec fuel ((n + 1) / 2)

/-- Modelled from the spec: ceiling of the base-2 logarithm. -/
def log_2_ceil (n : ℕ) : ℕ :=
  log_2_ceil_rec n n

/-- Source `Fri::num_rounds`: the pair (number of rounds, maximum degree of the
last round).  The float expression `(s as f64 / e as f64).ceil()` is modelled
as the exact integer ceiling `(s + e - 1) / e`. -/
def num_rounds (domainLength expansionFactor colinearityChecksCount : ℕ) : ℕ × ℕ :=
  let maxDegree := domainLength / expansionFactor - 1
  let roundsCount := log_2_ceil (maxDegree + 1)
  if expansionFactor < colinearityChecksCount then
    let numMissedRounds :=
      log_2_ceil ((colinearityChecksCount + expansionFactor - 1) / expansionFactor)
    (roundsCount - numMissedRounds, 2 ^ numMissedRounds - 1)
  else
    (roundsCount, 0)

/-- Formula of claim C7, stated from the claim's own words: `rounds =
ceil(log2(d/e - 1 + 1))` reduced by `missed = ceil(log2(ceil(s/e)))` when
`e < s`, with permitted last-round degree `2^missed - 1`. -/
def num_rounds_claimed (domainLength expansionFactor colinearityChecksCount : ℕ) : ℕ × ℕ :=
  let rounds := log_2_ceil (domainLength / expansionFactor - 1 + 1)
  let missed :=
    if expansionFactor < colinearityChecksCount then
      log_2_ceil ((colinearityChecksCount + expansionFactor - 1) / expansionFactor)
    else 0
  (rounds - missed, 2 ^ missed - 1)

/-- C7 (counterexample): with domain length 512, expansion factor 4 and 6
colinearity checks, `num_rounds` does not return `(7, 0)`; it returns `(6, 1)`
because `4 < 6` triggers one missed round. -/
theorem C7_fixture_counterexample : num_rounds 512 4 6 ≠ (7, 0) := by decide

/-- C7 (amended): `num_rounds` computes exactly the claimed formula, and the
corrected regression fixtures are `num_rounds 512 4 6 = (6, 1)` (not `(7, 0)`,
which is the value for 2 colinearity checks) and `num_rounds 512 4 33 = (3, 15)`. -/
theorem C7_num_rounds_formula :
    (∀ d e s : ℕ, num_rounds d e s = num_rounds_claimed d e s) ∧
    num_rounds 512 4 6 = (6, 1) ∧ num_rounds 512 4 2 = (7, 0) ∧
    num_rounds 512 4 33 = (3, 15) := by
  refine ⟨?_, by decide, by decide, by decide⟩
  intro d e s
  by_cases h : e < s <;> simp [num_rounds, num_rounds_claimed, h]

/-! FRI index sampling, from `Fri::sample_indices` in `shared_math/fri.rs`.

`blake3_digest` and `get_index_from_bytes` live in `utils.rs`, which is not
among the analysed source files; the hash is therefore an abstract function
parameter, and `get_index_from_bytes` is modelled from the spec. -/

/-- Modelled from the spec: `get_index_from_bytes` (from the missing
`utils.rs`) reduces the hash modulo the requested length. -/
def get_index_from_bytes (h n : ℕ) : ℕ :=
  h % n

/-- Big-endian byte serialisation of the `u32` counter, `counter.to_be_bytes()`. -/
def beBytes4 (c : ℕ) : List ℕ :=
  [c / 2 ^ 24 % 256, c / 2 ^ 16 % 256, c / 2 ^ 8 % 256, c % 256]

/-- First loop of `sample_indices`: draw `k` indices without replacement from
the remaining candidate list, appending `seed ‖ counter` hashes; state is
(drawn indices, remaining candidates, counter). -/
def sample_draw (hash : List ℕ → ℕ) (seed : List ℕ) :
    ℕ → List ℕ × List ℕ × ℕ → List ℕ × List ℕ × ℕ
  | 0, st => st
  | k + 1, (acc, remaining, counter) =>
      let h := hash (seed ++ beBytes4 counter)
      let index := get_index_from_bytes h remaining.length
      sample_draw hash seed k
        (acc ++ [remaining.getD index 0], remaining.eraseIdx index, counter + 1)

/-- Inner loop of the second phase of `sample_indices`: for every currently
held index, hash `seed ‖ counter`, add half the codeword length iff the hash
reduced modulo 2 equals 0, and increment the counter after every hash call. -/
def doubling_round (hash : List ℕ → ℕ) (seed : List ℕ) (codewordLength : ℕ) :
    List ℕ → ℕ → List ℕ × ℕ
  | [], counter => ([], counter)
  | idx :: rest, counter =>
      let h := hash (seed ++ beBytes4 counter)
      let newIndex := if get_index_from_bytes h 2 = 0 then idx + codewordLength / 2 else idx
      let next := doubling_round hash seed codewordLength rest (counter + 1)
      (newIndex :: next.1, next.2)

/-- Outer loop of the second phase of `sample_indices`: one `doubling_round`
per round index `i`, with codeword length `last_codeword_length <<< i`. -/
def doubling_rounds (hash : List ℕ → ℕ) (seed : List ℕ) (lastLen : ℕ) :
    List ℕ → List ℕ → ℕ → List ℕ × ℕ
  | [], indices, counter => (indices, counter)
  | i :: is, indices, counter =>
      let step := doubling_round hash seed (lastLen <<< i) indices counter
      doubling_rounds hash seed lastLen is step.1 step.2

/-- Source `Fri::sample_indices`: returns `none` exactly when the assert
`colinearity_checks_count <= last_codeword_length` fails (a panic in Rust). -/
def sample_indices (hash : List ℕ → ℕ) (seed : List ℕ)
    (domainLength expansionFactor colinearityChecksCount : ℕ) : Option (List ℕ) :=
  let numRounds := (num_rounds domainLength expansionFactor colinearityChecksCount).1
  let lastLen := domainLength >>> numRounds
  if colinearityChecksCount ≤ lastLen then
    let firstPhase :=
      sample_draw hash seed colinearityChecksCount ([], List.range lastLen, 0)
    some (doubling_rounds hash seed lastLen (List.range' 1 (numRounds - 1))
      firstPhase.1 firstPhase.2.2).1
  else
    none

/-- Doubling step as described by claim C2's words: the index is increased by
half the codeword length exactly when the hash reduced modulo 2 equals 1
(the code uses 0). -/
def doubling_round_claimed (hash : List ℕ → ℕ) (seed : List ℕ) (codewordLength : ℕ) :
    List ℕ → ℕ → List ℕ × ℕ
  | [], counter => ([], counter)
  | idx :: rest, counter =>
      let h := hash (seed ++ beBytes4 counter)
      let newIndex := if get_index_from_bytes h 2 = 1 then idx + codewordLength / 2 else idx
      let next := doubling_round_claimed hash seed codewordLength rest (counter + 1)
      (newIndex :: next.1, next.2)

/-- Variant of `doubling_rounds` built on the claimed parity. -/
def doubling_rounds_claimed (hash : List ℕ → ℕ) (seed : List ℕ) (lastLen : ℕ) :
    List ℕ → List ℕ → ℕ → List ℕ × ℕ
  | [], indices, counter => (indices, counter)
  | i :: is, indices, counter =>
      let step := doubling_round_claimed hash seed (lastLen <<< i) indices counter
      doubling_rounds_claimed hash seed lastLen is step.1 step.2

/-- Claim C2's description of `sample_indices`: identical to the code except
that the doubling step adds on hash parity 1 instead of 0. -/
def sample_indices_claimed (hash : List ℕ → ℕ) (seed : List ℕ)
    (domainLength expansionFactor colinearityChecksCount : ℕ) : Option (List ℕ) :=
  let numRounds := (num_rounds domainLength expansionFactor colinearityChecksCount).1
  let lastLen := domainLength >>> numRounds
  if colinearityChecksCount ≤ lastLen then
    let firstPhase :=
      sample_draw hash seed colinearityChecksCount ([], List.range lastLen, 0)
    some (doubling_rounds_claimed hash seed lastLen (List.range' 1 (numRounds - 1))
      firstPhase.1 firstPhase.2.2).1
  else
    none

/-- Closed form of the doubling step: every held index is increased by half the
codeword length exactly when `hash(seed ‖ counter)` reduced modulo 2 equals 0,
and the counter advances once per hash call, i.e. once per held index. -/
theorem doubling_round_eq (hash : List ℕ → ℕ) (seed : List ℕ) (cl : ℕ)
    (indices : List ℕ) (counter : ℕ) :
    doubling_round hash seed cl indices counter =
      (indices.mapIdx (fun j idx =>
        if hash (seed ++ beBytes4 (counter + j)) % 2 = 0 then idx + cl / 2 else idx),
       counter + indices.length) := by
  induction indices generalizing counter with
  | nil => simp [doubling_round]
  | cons idx rest ih =>
      rw [doubling_round, ih (counter + 1)]
      simp only [List.mapIdx_cons, get_index_from_bytes, List.length_cons]
      rw [Prod.mk.injEq]
      refine ⟨?_, by omega⟩
      have hfun : (fun (j : ℕ) (x : ℕ) =>
          if hash (seed ++ beBytes4 (counter + 1 + j)) % 2 = 0 then x + cl / 2 else x) =
          (fun (i : ℕ) (x : ℕ) =>
          if hash (seed ++ beBytes4 (counter + (i + 1))) % 2 = 0 then x + cl / 2 else x) := by
        funext j x
        have hcj : counter + 1 + j = counter + (j + 1) := by omega
        rw [hcj]
      rw [hfun]
      simp

/-- C2 (counterexample): with the all-zeros hash function, domain length 16,
expansion factor 4 and one colinearity check, the code's doubling step adds
half the domain length (hash ≡ 0 mod 2) and returns `[4]`, whereas the claim's
parity-1 rule would leave the index unchanged and return `[0]`. -/
theorem C2_parity_counterexample :
    sample_indices (fun _ => 0) [] 16 4 1 = some [4] ∧
    sample_indices_claimed (fun _ => 0) [] 16 4 1 = some [0] ∧
    sample_indices (fun _ => 0) [] 16 4 1 ≠ sample_indices_claimed (fun _ => 0) [] 16 4 1 := by
  refine ⟨by decide, by decide, by decide⟩

/-- C2 (amended): in every doubling step of `sample_indices`, every currently
held index is increased by half of the about-to-double codeword length exactly
when `hash(seed ‖ counter)` reduced modulo 2 equals 0 (left unchanged when it
equals 1), the counter being incremented after every hash call regardless of
outcome. -/
theorem C2_doubling_step_parity (hash : List ℕ → ℕ) (seed : List ℕ) (cl : ℕ)
    (indices : List ℕ) (counter : ℕ) :
    doubling_round hash seed cl indices counter =
      (indices.mapIdx (fun j idx =>
        if hash (seed ++ beBytes4 (counter + j)) % 2 = 0 then idx + cl / 2 else idx),
       counter + indices.length) :=
  doubling_round_eq hash seed cl indices counter

/-- First-phase invariant: drawing `k` indices without replacement from a
duplicate-free candidate list below `L` extends the accumulator by `k`
pairwise-distinct values below `L` and advances the counter by `k`. -/
theorem sample_draw_spec (hash : List ℕ → ℕ) (seed : List ℕ) (L : ℕ) :
    ∀ (k : ℕ) (acc remaining : List ℕ) (counter : ℕ),
      k ≤ remaining.length → remaining.Nodup → (∀ x ∈ remaining, x < L) →
      acc.Nodup → (∀ x ∈ acc, x < L) → (∀ x ∈ acc, x ∉ remaining) →
      (sample_draw hash seed k (acc, remaining, counter)).1.length = acc.length + k ∧
      (sample_draw hash seed k (acc, remaining, counter)).1.Nodup ∧
      (∀ x ∈ (sample_draw hash seed k (acc, remaining, counter)).1, x < L) ∧
      (sample_draw hash seed k (acc, remaining, counter)).2.2 = counter + k := by
  intro k
  induction k with
  | zero =>
      intro acc remaining counter _ _ _ hnd hlt _
      exact ⟨rfl, hnd, hlt, rfl⟩
  | succ k ih =>
      intro acc remaining counter hk hrnd hrlt hand halt hdisj
      have hpos : 0 < remaining.length := by omega
      rw [sample_draw]
      set h := hash (seed ++ beBytes4 counter) with hh
      have hidx : get_index_from_bytes h remaining.length < remaining.length :=
        Nat.mod_lt _ hpos
      set index := get_index_from_bytes h remaining.length with hidxdef
      have hgetd : remaining.getD index 0 = remaining[index] :=
        List.getD_eq_getElem _ _ hidx
      have helem_mem : remaining.getD index 0 ∈ remaining := by
        rw [hgetd]
        exact List.getElem_mem hidx
      have helem_lt : remaining.getD index 0 < L := hrlt _ helem_mem
      have helem_notin_acc : remaining.getD index 0 ∉ acc :=
        fun hmem => hdisj _ hmem helem_mem
      have herase_sub := List.eraseIdx_sublist remaining index
      have hlen_erase : (remaining.eraseIdx index).length = remaining.length - 1 := by
        rw [List.length_eraseIdx]
        simp [hidx]
      have happly := ih (acc ++ [remaining.getD index 0]) (remaining.eraseIdx index)
        (counter + 1)
        (by omega)
        (hrnd.eraseIdx index)
        (fun x hx => hrlt x (herase_sub.mem hx))
        (by
          rw [List.nodup_append]
          refine ⟨hand, List.nodup_singleton _, ?_⟩
          intro a ha hamem
          rw [List.mem_singleton] at hamem
          exact helem_notin_acc (hamem ▸ ha))
        (by
          intro x hx
          rw [List.mem_append] at hx
          rcases hx with hx | hx
          · exact halt x hx
          · rw [List.mem_singleton] at hx
            exact hx ▸ helem_lt)
        (by
          intro x hx
          rw [List.mem_append] at hx
          rcases hx with hx | hx
          · exact fun hmem => hdisj x hx (herase_sub.mem hmem)
          · rw [List.mem_singleton] at hx
            subst hx
            intro hmem
            rw [List.mem_eraseIdx_iff_getElem] at hmem
            obtain ⟨i, hi, hne, hieq⟩ := hmem
            rw [hgetd] at hieq
            exact hne (hrnd.getElem_inj_iff.1 hieq))
      refine ⟨?_, happly.2.1, happly.2.2.1, ?_⟩
      · rw [happly.1]
        simp
        omega
      · rw [happly.2.2.2]
        omega

/-- Second-phase invariant: running the doubling rounds for consecutive round
indices starting strictly above 0 preserves the number of indices and every
index's residue modulo the last codeword length, and grows the range bound by
one factor of two per round. -/
theorem doubling_rounds_spec (hash : List ℕ → ℕ) (seed : List ℕ) (L : ℕ) :
    ∀ (m a : ℕ) (indices : List ℕ) (counter : ℕ),
      (doubling_rounds hash seed L (List.range' (a + 1) m) indices counter).1.length =
        indices.length ∧
      (∀ (j : ℕ) (hj : j < (doubling_rounds hash seed L
            (List.range' (a + 1) m) indices counter).1.length)
          (hj' : j < indices.length),
        (doubling_rounds hash seed L (List.range' (a + 1) m) indices counter).1[j] % L =
          indices[j] % L) ∧
      ((∀ x ∈ indices, x < L <<< a) →
        ∀ x ∈ (doubling_rounds hash seed L (List.range' (a + 1) m) indices counter).1,
          x < L <<< (a + m)) := by
  intro m
  induction m with
  | zero =>
      intro a indices counter
      refine ⟨rfl, by intro j hj hj'; rfl, by intro hbd; simpa using hbd⟩
  | succ m ih =>
      intro a indices counter
      rw [List.range'_succ]
      rw [doubling_rounds]
      rw [doubling_round_eq]
      set step := indices.mapIdx (fun j idx =>
        if hash (seed ++ beBytes4 (counter + j)) % 2 = 0
        then idx + L <<< (a + 1) / 2 else idx) with hstep
      have hstep_len : step.length = indices.length := by
        rw [hstep, List.length_mapIdx]
      have hhalf : L <<< (a + 1) / 2 = L <<< a := by
        rw [Nat.shiftLeft_eq, Nat.shiftLeft_eq, pow_succ, ← Nat.mul_assoc]
        exact Nat.mul_div_cancel _ (by norm_num)
      have hstep_get : ∀ (j : ℕ) (hj : j < step.length) (hj' : j < indices.length),
          step[j] = indices[j] ∨ step[j] = indices[j] + L <<< a := by
        intro j hj hj'
        simp only [hstep, List.getElem_mapIdx]
        by_cases hc : hash (seed ++ beBytes4 (counter + j)) % 2 = 0
        · right
          rw [if_pos hc]
          omega
        · left
          rw [if_neg hc]
      have hstep_mod : ∀ (j : ℕ) (hj : j < step.length) (hj' : j < indices.length),
          step[j] % L = indices[j] % L := by
        intro j hj hj'
        rcases hstep_get j hj hj' with he | he
        · rw [he]
        · rw [he, Nat.shiftLeft_eq, Nat.add_mul_mod_self_left]
      obtain ⟨ihlen, ihmod, ihbd⟩ := ih (a + 1) step (counter + indices.length)
      refine ⟨by rw [ihlen, hstep_len], ?_, ?_⟩
      · intro j hj hj'
        have hj2 : j < step.length := by omega
        rw [ihmod j hj hj2, hstep_mod j hj2 hj']
      · intro hbd x hx
        have hbd2 : ∀ y ∈ step, y < L <<< (a + 1) := by
          intro y hy
          rw [List.mem_iff_getElem] at hy
          obtain ⟨j, hj, hyeq⟩ := hy
          have hj' : j < indices.length := by omega
          have hidx_lt := hbd _ (List.getElem_mem hj')
          rcases hstep_get j hj hj' with he | he
          · rw [← hyeq, he]
            calc indices[j] < L <<< a := hidx_lt
            _ ≤ L <<< (a + 1) := by
                rw [Nat.shiftLeft_eq, Nat.shiftLeft_eq]
                exact Nat.mul_le_mul_left _ (Nat.pow_le_pow_right (by norm_num) (by omega))
          · rw [← hyeq, he, Nat.shiftLeft_eq, Nat.shiftLeft_eq, pow_succ]
            have : L * 2 ^ a + L * 2 ^ a = L * (2 ^ a * 2) := by ring
            omega
        have := ihbd hbd2 x hx
        have harr : a + 1 + m = a + (m + 1) := by omega
        rw [harr] at this
        exact this

/-- C8: under the precondition `colinearity_checks_count ≤ domain.length >>
num_rounds`, `sample_indices` succeeds and returns exactly
`colinearity_checks_count` indices, each in `[0, domain.length)`, pairwise
distinct modulo the last round's codeword length and hence pairwise
distinct. -/
theorem C8_sample_indices_sound (hash : List ℕ → ℕ) (seed : List ℕ) (d e s : ℕ)
    (h : s ≤ d >>> (num_rounds d e s).1) :
    ∃ l, sample_indices hash seed d e s = some l ∧ l.length = s ∧
      (∀ x ∈ l, x < d) ∧
      (∀ (i j : ℕ) (hi : i < l.length) (hj : j < l.length), i ≠ j →
        l[i] % (d >>> (num_rounds d e s).1) ≠ l[j] % (d >>> (num_rounds d e s).1)) ∧
      l.Nodup := by
  set r := (num_rounds d e s).1 with hr
  set L := d >>> r with hL
  obtain ⟨d1len, d1nd, d1lt, d1ctr⟩ := sample_draw_spec hash seed L s [] (List.range L) 0
    (by simpa using h) (List.nodup_range L) (by intro x hx; exact List.mem_range.1 hx)
    (List.nodup_nil) (by intro x hx; cases hx) (by intro x hx; cases hx)
  set drawn := (sample_draw hash seed s ([], List.range L, 0)).1 with hdrawn
  set ctr := (sample_draw hash seed s ([], List.range L, 0)).2.2 with hctr
  obtain ⟨d2len, d2mod, d2bd⟩ := doubling_rounds_spec hash seed L (r - 1) 0 drawn ctr
  set out := (doubling_rounds hash seed L (List.range' (0 + 1) (r - 1)) drawn ctr).1
    with hout
  have hsome : sample_indices hash seed d e s = some out := by
    rw [sample_indices]
    rw [if_pos h]
  have hlen : out.length = s := by
    rw [d2len, d1len]
    simp
  have hmods : ∀ (i : ℕ) (hi : i < out.length), out[i] % L = drawn[i] % L := by
    intro i hi
    exact d2mod i hi (by omega)
  have hdrawn_lt : ∀ (i : ℕ) (hi : i < drawn.length), drawn[i] < L := by
    intro i hi
    exact d1lt _ (List.getElem_mem hi)
  have hmod_drawn : ∀ (i : ℕ) (hi : i < drawn.length), drawn[i] % L = drawn[i] := by
    intro i hi
    exact Nat.mod_eq_of_lt (hdrawn_lt i hi)
  have hdistinct : ∀ (i j : ℕ) (hi : i < out.length) (hj : j < out.length), i ≠ j →
      out[i] % L ≠ out[j] % L := by
    intro i j hi hj hne
    have hi' : i < drawn.length := by omega
    have hj' : j < drawn.length := by omega
    rw [hmods i hi, hmods j hj, hmod_drawn i hi', hmod_drawn j hj']
    intro heq
    exact hne (d1nd.getElem_inj_iff.1 heq)
  have hbound : ∀ x ∈ out, x < d := by
    rcases Nat.eq_zero_or_pos d with hd0 | hdpos
    · intro x hx
      exfalso
      have : L = 0 := by rw [hL, hd0]; simp
      have hs0 : s = 0 := by omega
      have : out.length = 0 := by rw [hlen, hs0]
      rw [List.length_eq_zero] at this
      rw [this] at hx
      cases hx
    · have hstart : ∀ x ∈ drawn, x < L <<< 0 := by
        intro x hx
        simpa using d1lt x hx
      have hfin := d2bd hstart
      intro x hx
      have hxlt := hfin x hx
      have hLle : L <<< (0 + (r - 1)) ≤ d := by
        rw [Nat.shiftLeft_eq, hL, Nat.shiftRight_eq_div_pow]
        rcases Nat.eq_zero_or_pos r with hr0 | hrpos
        · simp [hr0]
        · have h1 : d / 2 ^ r * 2 ^ (0 + (r - 1)) * 2 = d / 2 ^ r * 2 ^ r := by
            rw [Nat.mul_assoc, ← pow_succ]
            congr 2
            omega
          have h2 := Nat.div_mul_le_self d (2 ^ r)
          omega
      omega
  exact ⟨out, hsome, hlen, hbound, hdistinct, by
    rw [List.nodup_iff_getElem?_ne_getElem?]
    intro i j hij hjlen
    have hi : i < out.length := by omega
    rw [List.getElem?_eq_getElem hi, List.getElem?_eq_getElem hjlen]
    intro heq
    rw [Option.some_inj] at heq
    exact hdistinct i j hi hjlen (by omega) (by rw [heq])⟩

/-- Witness for C8 at concrete inputs: the all-zeros hash, empty seed, domain
length 16, expansion factor 4, two colinearity checks. -/
theorem C8_witness :
    2 ≤ 16 >>> (num_rounds 16 4 2).1 ∧
    (∃ l, sample_indices (fun _ => 0) [] 16 4 2 = some l ∧ l.length = 2 ∧
      (∀ x ∈ l, x < 16) ∧
      (∀ (i j : ℕ) (hi : i < l.length) (hj : j < l.length), i ≠ j →
        l[i] % (16 >>> (num_rounds 16 4 2).1) ≠ l[j] % (16 >>> (num_rounds 16 4 2).1)) ∧
      l.Nodup) :=
  ⟨by decide, C8_sample_indices_sound (fun _ => 0) [] 16 4 2 (by decide)⟩

/-! Polynomial multiplication, from `math/polynomial.rs`. -/

/-- Source `impl Add for Polynomial`: coefficient-wise sum, zip-longest style
(the longer operand's tail is kept as-is). -/
def poly_add : List F → List F → List F
  | [], ys => ys
  | xs, [] => xs
  | x :: xs, y :: ys => (x + y) :: poly_add xs ys

theorem getD_poly_add (xs ys : List F) (k : ℕ) :
    (poly_add xs ys).getD k 0 = xs.getD k 0 + ys.getD k 0 := by
  induction xs generalizing ys k with
  | nil => simp [poly_add]
  | cons x xs ih =>
      cases ys with
      | nil => simp [poly_add]
      | cons y ys =>
          cases k with
          | zero => simp [poly_add]
          | succ k => simpa [poly_add] using ih ys k

theorem length_poly_add (xs ys : List F) :
    (poly_add xs ys).length = max xs.length ys.length := by
  induction xs generalizing ys with
  | nil => simp [poly_add]
  | cons x xs ih =>
      cases ys with
      | nil => simp [poly_add]
      | cons y ys => simp [poly_add, ih ys]; omega

/-- Source `Polynomial::naive_multiply`: allocate `deg a + deg b + 1` zeros and
run the double loop `product[i + j] += a[i] * b[j]`; each outer iteration `i`
adds the shifted scaled row `0^i ++ [a[i]·b[0], …, a[i]·b[deg b]]` into the
accumulator.  Zero when either factor is zero (the `usize::try_from` guards). -/
def naive_multiply (a b : List F) : List F :=
  if degree a < 0 then [] else if degree b < 0 then [] else
  (List.range ((degree a).toNat + 1)).foldl (fun acc i =>
      poly_add acc (List.replicate i 0 ++
        (List.range ((degree b).toNat + 1)).map (fun j => a.getD i 0 * b.getD j 0)))
    (List.replicate ((degree a).toNat + (degree b).toNat + 1) 0)

theorem trim_length_eq_degree (p : List F) (h : 0 ≤ degree p) :
    (trim p).length = (degree p).toNat + 1 := by
  rw [degree_def] at h ⊢
  omega

theorem getD_eq_zero_of_degree_lt (p : List F) (n : ℕ) (h : degree p < (n : ℤ)) :
    p.getD n 0 = 0 := by
  apply getD_eq_zero_of_trim_length_le
  rw [degree_def] at h
  omega

theorem getD_map_range {β : Type} (f : ℕ → β) (n k : ℕ) (d : β) :
    ((List.range n).map f).getD k d = if k < n then f k else d := by
  by_cases h : k < n
  · rw [if_pos h, List.getD_eq_getElem _ _ (by simpa using h)]
    simp
  · rw [if_neg h, List.getD_eq_default]
    simpa using h

theorem degree_neg_all_zero (p : List F) (h : degree p < 0) (n : ℕ) : p.getD n 0 = 0 :=
  getD_eq_zero_of_degree_lt p n (by omega)

theorem getD_foldl_poly_add (f : ℕ → List F) (acc : List F) (k : ℕ) :
    ∀ n, ((List.range n).foldl (fun acc i => poly_add acc (f i)) acc).getD k 0
      = acc.getD k 0 + ∑ i ∈ Finset.range n, (f i).getD k 0 := by
  intro n
  induction n with
  | zero => simp
  | succ n ih =>
      rw [List.range_succ, List.foldl_append, List.foldl_cons, List.foldl_nil,
        getD_poly_add, ih, Finset.sum_range_succ, add_assoc]

theorem getD_replicate_zero_append (i : ℕ) (l : List F) (k : ℕ) :
    (List.replicate i (0 : F) ++ l).getD k 0 = if k < i then 0 else l.getD (k - i) 0 := by
  by_cases h : k < i
  · rw [if_pos h, List.getD_append _ _ _ _ (by simpa using h)]
    rw [List.getD_eq_getElem _ _ (by simpa using h)]
    simp
  · push_neg at h
    rw [if_neg (by omega), List.getD_append_right _ _ _ _ (by simpa using h)]
    simp

theorem getD_replicate_zero (n k : ℕ) : (List.replicate n (0 : F)).getD k 0 = 0 := by
  rcases Nat.lt_or_ge k n with h | h
  · rw [List.getD_eq_getElem _ _ (by simpa using h)]
    simp
  · rw [List.getD_eq_default _ _ (by simpa using h)]

theorem getD_naive_multiply (a b : List F) (k : ℕ) :
    (naive_multiply a b).getD k 0 =
      ∑ ij ∈ Finset.antidiagonal k, a.getD ij.1 0 * b.getD ij.2 0 := by
  by_cases ha : degree a < 0
  · rw [naive_multiply, if_pos ha]
    rw [List.getD_eq_default _ _ (by simp)]
    symm
    apply Finset.sum_eq_zero
    intro ij _
    rw [degree_neg_all_zero a ha]
    ring
  · by_cases hb : degree b < 0
    · rw [naive_multiply, if_neg ha, if_pos hb]
      rw [List.getD_eq_default _ _ (by simp)]
      symm
      apply Finset.sum_eq_zero
      intro ij _
      rw [degree_neg_all_zero b hb]
      ring
    · push_neg at ha hb
      rw [naive_multiply, if_neg (by omega), if_neg (by omega)]
      set da := (degree a).toNat with hda
      set db := (degree b).toNat with hdb
      have hza : ∀ i : ℕ, da < i → a.getD i 0 = 0 := by
        intro i hi
        apply getD_eq_zero_of_degree_lt
        omega
      have hzb : ∀ j : ℕ, db < j → b.getD j 0 = 0 := by
        intro j hj
        apply getD_eq_zero_of_degree_lt
        omega
      rw [getD_foldl_poly_add, getD_replicate_zero, zero_add]
      have hrow : ∀ i : ℕ, (List.replicate i (0 : F) ++
          (List.range (db + 1)).map (fun j => a.getD i 0 * b.getD j 0)).getD k 0
          = if i ≤ k ∧ k - i < db + 1 then a.getD i 0 * b.getD (k - i) 0 else 0 := by
        intro i
        rw [getD_replicate_zero_append, getD_map_range]
        by_cases h1 : k < i
        · rw [if_pos h1, if_neg (by omega)]
        · rw [if_neg h1]
          by_cases h2 : k - i < db + 1
          · rw [if_pos h2, if_pos ⟨by omega, h2⟩]
          · rw [if_neg h2, if_neg (by rw [not_and]; intro; omega)]
      rw [Finset.sum_congr rfl (fun i _ => hrow i)]
      rw [Finset.Nat.sum_antidiagonal_eq_sum_range_succ_mk]
      have hg0 : ∀ i : ℕ, da < i →
          (if i ≤ k ∧ k - i < db + 1 then a.getD i 0 * b.getD (k - i) 0 else 0) = 0 := by
        intro i hi
        by_cases hc : i ≤ k ∧ k - i < db + 1
        · rw [if_pos hc, hza i hi, zero_mul]
        · rw [if_neg hc]
      have e1 : ∑ i ∈ Finset.range (da + 1),
          (if i ≤ k ∧ k - i < db + 1 then a.getD i 0 * b.getD (k - i) 0 else 0)
          = ∑ i ∈ Finset.range (max (da + 1) (k + 1)),
          (if i ≤ k ∧ k - i < db + 1 then a.getD i 0 * b.getD (k - i) 0 else 0) := by
        apply Finset.sum_subset (Finset.range_subset.2 (by omega))
        intro i hi hnot
        rw [Finset.mem_range] at hi hnot
        exact hg0 i (by omega)
      have e2 : ∑ i ∈ Finset.range (k + 1),
          (if i ≤ k ∧ k - i < db + 1 then a.getD i 0 * b.getD (k - i) 0 else 0)
          = ∑ i ∈ Finset.range (max (da + 1) (k + 1)),
          (if i ≤ k ∧ k - i < db + 1 then a.getD i 0 * b.getD (k - i) 0 else 0) := by
        apply Finset.sum_subset (Finset.range_subset.2 (by omega))
        intro i hi hnot
        rw [Finset.mem_range] at hi hnot
        rw [if_neg (by rw [not_and]; intro; omega)]
      have e3 : ∑ i ∈ Finset.range (k + 1),
          (if i ≤ k ∧ k - i < db + 1 then a.getD i 0 * b.getD (k - i) 0 else 0)
          = ∑ i ∈ Finset.range (k + 1), a.getD i 0 * b.getD (k - i) 0 := by
        apply Finset.sum_congr rfl
        intro i hi
        rw [Finset.mem_range] at hi
        by_cases h2 : k - i < db + 1
        · rw [if_pos ⟨by omega, h2⟩]
        · rw [if_neg (by rw [not_and]; intro; omega), hzb (k - i) (by omega), mul_zero]
      rw [e1, ← e2, e3]

/-- Semantic correctness of the schoolbook convolution. -/
theorem toPoly_naive_multiply (a b : List F) :
    toPoly (naive_multiply a b) = toPoly a * toPoly b := by
  apply Polynomial.ext
  intro k
  rw [Polynomial.coeff_mul, coeff_toPoly, getD_naive_multiply]
  apply Finset.sum_congr rfl
  intro ij _
  rw [coeff_toPoly, coeff_toPoly]

/-! Transform model.  `math/ntt.rs` is not among the analysed source files. -/

/-- Modelled from the spec: the forward transform (`ntt` from the missing
`math/ntt.rs`) maps a coefficient vector to its evaluations at the successive
powers of the supplied root of unity. -/
def ntt (v : List F) (ω : F) : List F :=
  (List.range v.length).map (fun i => evaluate v (ω ^ i))

/-- Modelled from the spec: the inverse transform (`intt` from the missing
`math/ntt.rs`) exactly undoes the forward transform after scaling by `n⁻¹`;
concretely, the forward transform at the inverse root followed by that
scaling. -/
def intt (v : List F) (ω : F) : List F :=
  (ntt v ω⁻¹).map (fun c => (v.length : F)⁻¹ * c)

theorem length_ntt (v : List F) (ω : F) : (ntt v ω).length = v.length := by
  rw [ntt]
  simp

theorem length_intt (v : List F) (ω : F) : (intt v ω).length = v.length := by
  rw [intt]
  simp [length_ntt]

theorem getElem_ntt (v : List F) (ω : F) (j : ℕ) (hj : j < (ntt v ω).length) :
    (ntt v ω)[j] = evaluate v (ω ^ j) := by
  rw [length_ntt] at hj
  simp [ntt]

theorem evaluate_eq_sum (p : List F) (x : F) :
    evaluate p x = ∑ m ∈ Finset.range p.length, p.getD m 0 * x ^ m := by
  induction p with
  | nil => simp [evaluate]
  | cons c q ih =>
      have hstep : evaluate (c :: q) x = c + x * evaluate q x := by
        simp [evaluate]
      rw [hstep, ih, List.length_cons, Finset.sum_range_succ']
      rw [Finset.mul_sum]
      simp only [List.getD_cons_succ, List.getD_cons_zero, pow_zero, mul_one, pow_succ]
      rw [add_comm]
      congr 1
      apply Finset.sum_congr rfl
      intro m _
      ring

/-- Orthogonality of the characters of a primitive root: the geometric sum
collapses to `n` on the diagonal and to zero off it. -/
theorem sum_char_orthogonal {ω : F} {n : ℕ} (hω : IsPrimitiveRoot ω n)
    (m i : ℕ) (hm : m < n) (hi : i < n) :
    ∑ j ∈ Finset.range n, (ω ^ m * (ω ^ i)⁻¹) ^ j = if m = i then (n : F) else 0 := by
  have hω_ne : ω ≠ 0 := by
    intro h0
    have h1 := hω.pow_eq_one
    rw [h0] at h1
    have hn : 0 < n := by omega
    rw [zero_pow (by omega)] at h1
    exact zero_ne_one h1
  have hpow_ne : ∀ k : ℕ, ω ^ k ≠ 0 := fun k => pow_ne_zero k hω_ne
  by_cases heq : m = i
  · subst heq
    rw [if_pos rfl]
    have hone : ω ^ m * (ω ^ m)⁻¹ = 1 := mul_inv_cancel₀ (hpow_ne m)
    rw [hone]
    simp
  · rw [if_neg heq]
    set x := ω ^ m * (ω ^ i)⁻¹ with hx
    have hxn : x ^ n = 1 := by
      have h1 : ω ^ (m * n) = 1 := by
        rw [Nat.mul_comm m n, pow_mul, hω.pow_eq_one, one_pow]
      have h2 : ω ^ (i * n) = 1 := by
        rw [Nat.mul_comm i n, pow_mul, hω.pow_eq_one, one_pow]
      rw [hx, mul_pow, inv_pow, ← pow_mul, ← pow_mul, h1, h2]
      simp
    have hx1 : x ≠ 1 := by
      intro h1
      apply heq
      apply hω.pow_inj hm hi
      have : ω ^ m * (ω ^ i)⁻¹ * ω ^ i = 1 * ω ^ i := by rw [← hx, h1]
      rw [mul_assoc, inv_mul_cancel₀ (hpow_ne i), mul_one, one_mul] at this
      exact this
    rw [geom_sum_eq hx1, hxn]
    simp

/-- Inverse transform of the forward transform is the identity whenever the
root is a primitive root of the vector's length and that length is invertible
in the field. -/
theorem intt_ntt {v : List F} {ω : F} {n : ℕ} (hlen : v.length = n)
    (hω : IsPrimitiveRoot ω n) (hchar : (n : F) ≠ 0) :
    intt (ntt v ω) ω = v := by
  have hwlen : (ntt v ω).length = n := by rw [length_ntt, hlen]
  apply List.ext_getElem
  · rw [length_intt, hwlen, hlen]
  · intro i hi1 hi2
    have hin : i < n := by
      rw [length_intt, hwlen] at hi1
      exact hi1
    have hrep : (intt (ntt v ω) ω)[i] =
        ((ntt v ω).length : F)⁻¹ * evaluate (ntt v ω) ((ω⁻¹) ^ i) := by
      simp only [intt, ntt, List.getElem_map, List.getElem_range]
    rw [hrep, hwlen]
    rw [evaluate_eq_sum, hwlen]
    have hterm : ∀ j ∈ Finset.range n, (ntt v ω).getD j 0 * ((ω⁻¹) ^ i) ^ j =
        ∑ m ∈ Finset.range n, v.getD m 0 * (ω ^ m * (ω ^ i)⁻¹) ^ j := by
      intro j hj
      rw [Finset.mem_range] at hj
      have : (ntt v ω).getD j 0 = evaluate v (ω ^ j) := by
        rw [List.getD_eq_getElem _ _ (by omega : j < (ntt v ω).length)]
        exact getElem_ntt v ω j (by omega)
      rw [this, evaluate_eq_sum, hlen, Finset.sum_mul]
      apply Finset.sum_congr rfl
      intro m _
      rw [mul_assoc]
      congr 1
      rw [mul_pow, pow_right_comm, inv_pow]
    rw [Finset.sum_congr rfl hterm, Finset.sum_comm]
    have hinner : ∀ m ∈ Finset.range n,
        ∑ j ∈ Finset.range n, v.getD m 0 * (ω ^ m * (ω ^ i)⁻¹) ^ j =
        v.getD m 0 * (if m = i then (n : F) else 0) := by
      intro m hm
      rw [Finset.mem_range] at hm
      rw [← Finset.mul_sum, sum_char_orthogonal hω m i hm hin]
    rw [Finset.sum_congr rfl hinner]
    have hcollapse : ∑ m ∈ Finset.range n, v.getD m 0 * (if m = i then (n : F) else 0) =
        v.getD i 0 * (n : F) := by
      rw [Finset.sum_eq_single i]
      · rw [if_pos rfl]
      · intro m _ hmi
        rw [if_neg hmi, mul_zero]
      · intro habs
        exact absurd (Finset.mem_range.2 hin) habs
    rw [hcollapse]
    rw [List.getD_eq_getElem _ _ (by omega : i < v.length)]
    field_simp

/-- Rust `usize::next_power_of_two`: the smallest power of two not below the
argument (1 for 0). -/
def next_power_of_two (n : ℕ) : ℕ :=
  2 ^ log_2_ceil n

theorem log_2_ceil_rec_le (fuel : ℕ) :
    ∀ n : ℕ, n ≤ fuel + 1 → n ≤ 2 ^ log_2_ceil_rec fuel n := by
  induction fuel with
  | zero =>
      intro n hn
      rw [log_2_ceil_rec]
      simpa using hn
  | succ fuel ih =>
      intro n hn
      rw [log_2_ceil_rec]
      by_cases h1 : n ≤ 1
      · rw [if_pos h1]
        simpa using h1
      · rw [if_neg h1]
        push_neg at h1
        have hrec := ih ((n + 1) / 2) (by omega)
        rw [pow_add, pow_one]
        omega

theorem le_next_power_of_two (n : ℕ) : n ≤ next_power_of_two n := by
  rw [next_power_of_two, log_2_ceil]
  exact log_2_ceil_rec_le n n (by omega)

/-- Rust `Vec::resize` with zero filler: truncate or zero-extend to length `n`. -/
def resize (l : List F) (n : ℕ) : List F :=
  l.take n ++ List.replicate (n - l.length) 0

theorem length_resize (l : List F) (n : ℕ) : (resize l n).length = n := by
  rw [resize]
  simp only [List.length_append, List.length_take, List.length_replicate]
  omega

theorem getD_resize (l : List F) (n k : ℕ) :
    (resize l n).getD k 0 = if k < n then l.getD k 0 else 0 := by
  by_cases hk : k < n
  · rw [if_pos hk]
    by_cases hkl : k < l.length
    · rw [resize, List.getD_append _ _ _ _ (by simp; omega), List.getD_eq_getElem _ _
        (by simp; omega), List.getElem_take, List.getD_eq_getElem _ _ hkl]
    · push_neg at hkl
      have hk2 : k < (resize l n).length := by
        rw [length_resize]
        omega
      rw [List.getD_eq_getElem _ _ hk2, List.getD_eq_default l 0 hkl]
      have hk3 : (List.take n l).length ≤ k := by
        simp only [List.length_take]
        omega
      simp only [resize]
      rw [List.getElem_append_right hk3]
      simp
  · rw [if_neg hk, List.getD_eq_default]
    rw [length_resize]
    omega

theorem toPoly_resize (l : List F) (n : ℕ) (h : (trim l).length ≤ n) :
    toPoly (resize l n) = toPoly l := by
  rw [toPoly_eq_iff]
  intro k
  rw [getD_resize]
  by_cases hk : k < n
  · rw [if_pos hk]
  · rw [if_neg hk]
    symm
    exact getD_eq_zero_of_trim_length_le l k (by omega)

theorem trim_length_le (p : List F) : (trim p).length ≤ p.length := by
  obtain ⟨zs, hsplit, _⟩ := trim_spec p
  conv_rhs => rw [hsplit]
  simp

theorem toPoly_eq_zero_iff (p : List F) : toPoly p = 0 ↔ ∀ k, p.getD k 0 = 0 := by
  rw [← toPoly_nil, toPoly_eq_iff]
  simp

theorem toPoly_eq_zero_of_degree_neg (p : List F) (h : degree p < 0) : toPoly p = 0 := by
  rw [toPoly_eq_zero_iff]
  intro k
  exact degree_neg_all_zero p h k

theorem getD_take (l : List F) (n k : ℕ) :
    (l.take n).getD k 0 = if k < n then l.getD k 0 else 0 := by
  by_cases hk : k < n
  · rw [if_pos hk]
    by_cases hkl : k < l.length
    · rw [List.getD_eq_getElem _ _ (by simp; omega), List.getElem_take,
        List.getD_eq_getElem _ _ hkl]
    · rw [List.getD_eq_default _ _ (by simp; omega), List.getD_eq_default _ _ (by omega)]
  · rw [if_neg hk, List.getD_eq_default]
    simp
    omega

theorem evaluate_zero_list (p : List F) (h : ∀ k, p.getD k 0 = 0) (x : F) :
    evaluate p x = 0 := by
  rw [evaluate_eq_eval]
  rw [(toPoly_eq_zero_iff p).2 h]
  simp

theorem getElem_intt (v : List F) (ω : F) (k : ℕ) (hk : k < (intt v ω).length) :
    (intt v ω)[k] = (v.length : F)⁻¹ * evaluate v ((ω⁻¹) ^ k) := by
  simp only [intt, ntt, List.getElem_map, List.getElem_range]

/-- Order of the NTT domain chosen by `fast_multiply`: the next power of two
at least the combined degree plus one. -/
def mul_order (a b : List F) : ℕ :=
  next_power_of_two ((degree a + degree b).toNat + 1)

/-- Source `Polynomial::fast_multiply`: zero-pad both operands to the next
power of two above the combined degree, forward-transform both, multiply
pointwise, inverse-transform, truncate to the exact result length.  Returns
the zero polynomial when the combined degree underflows `usize`. -/
def fast_multiply (R : ℕ → F) (a b : List F) : List F :=
  if degree a + degree b < 0 then [] else
  (intt (((ntt (resize b (mul_order a b)) (R (mul_order a b))).zip
    (ntt (resize a (mul_order a b)) (R (mul_order a b)))).map (fun rl => rl.1 * rl.2))
    (R (mul_order a b))).take ((degree a + degree b).toNat + 1)

/-- Source `Polynomial::multiply`: dispatch on the combined degree against the
cutoff `FAST_MULTIPLY_CUTOFF_THRESHOLD = 1 << 8`. -/
def multiply (R : ℕ → F) (a b : List F) : List F :=
  if degree a + degree b < 256 then naive_multiply a b else fast_multiply R a b

theorem length_foldl_poly_add (f : ℕ → List F) (acc : List F) :
    ∀ n, (∀ i, i < n → (f i).length ≤ acc.length) →
      ((List.range n).foldl (fun acc i => poly_add acc (f i)) acc).length = acc.length := by
  intro n
  induction n with
  | zero => simp
  | succ n ih =>
      intro hle
      rw [List.range_succ, List.foldl_append, List.foldl_cons, List.foldl_nil,
        length_poly_add, ih (fun i hi => hle i (by omega))]
      have := hle n (by omega)
      omega

theorem naive_multiply_length (a b : List F) (ha : 0 ≤ degree a) (hb : 0 ≤ degree b) :
    (naive_multiply a b).length = (degree a).toNat + (degree b).toNat + 1 := by
  rw [naive_multiply, if_neg (by omega), if_neg (by omega)]
  rw [length_foldl_poly_add]
  · simp
  · intro i hi
    simp only [List.length_append, List.length_replicate, List.length_map,
      List.length_range, List.length_replicate]
    omega

/-- Semantic correctness of the transform-based multiplication, under the
primitivity of the supplied root for the chosen order and the invertibility of
that order in the field. -/
theorem toPoly_fast_multiply (R : ℕ → F) (a b : List F)
    (hroot : IsPrimitiveRoot (R (mul_order a b)) (mul_order a b))
    (hchar : ((mul_order a b : ℕ) : F) ≠ 0) :
    toPoly (fast_multiply R a b) = toPoly a * toPoly b := by
  set order := mul_order a b with horderdef
  set root := R (mul_order a b) with hrootdef
  by_cases hd : degree a + degree b < 0
  · rw [fast_multiply, if_pos hd, toPoly_nil]
    have : degree a < 0 ∨ degree b < 0 := by omega
    rcases this with h | h
    · rw [toPoly_eq_zero_of_degree_neg a h, zero_mul]
    · rw [toPoly_eq_zero_of_degree_neg b h, mul_zero]
  · rw [fast_multiply, if_neg hd]
    push_neg at hd
    set deg := (degree a + degree b).toNat with hdegdef
    have hdeg1 : deg + 1 ≤ order := by
      rw [horderdef, mul_order]
      exact le_next_power_of_two _
    by_cases hzero : degree a < 0 ∨ degree b < 0
    · have hzf : toPoly a * toPoly b = 0 := by
        rcases hzero with h | h
        · rw [toPoly_eq_zero_of_degree_neg a h, zero_mul]
        · rw [toPoly_eq_zero_of_degree_neg b h, mul_zero]
      rw [hzf, toPoly_eq_zero_iff]
      have hablen : ∀ x : F,
          evaluate (resize a order) x * evaluate (resize b order) x = 0 := by
        intro x
        rcases hzero with h | h
        · have : toPoly (resize a order) = 0 := by
            rw [toPoly_resize a order (by
              have := trim_length_le a
              rw [degree_def] at h
              omega)]
            exact toPoly_eq_zero_of_degree_neg a h
          rw [evaluate_eq_eval, this]
          simp
        · have : toPoly (resize b order) = 0 := by
            rw [toPoly_resize b order (by
              have := trim_length_le b
              rw [degree_def] at h
              omega)]
            exact toPoly_eq_zero_of_degree_neg b h
          rw [evaluate_eq_eval (resize b order), this]
          simp
      have hhadamard : ∀ k, (((ntt (resize b order) root).zip
          (ntt (resize a order) root)).map (fun rl => rl.1 * rl.2)).getD k 0 = 0 := by
        intro k
        by_cases hk : k < (((ntt (resize b order) root).zip
            (ntt (resize a order) root)).map (fun rl => rl.1 * rl.2)).length
        · rw [List.getD_eq_getElem _ _ hk]
          simp only [List.getElem_map, List.getElem_zip]
          have hk2 : k < (ntt (resize b order) root).length := by
            simp only [List.length_map, List.length_zip] at hk
            omega
          have hk3 : k < (ntt (resize a order) root).length := by
            simp only [List.length_map, List.length_zip] at hk
            omega
          rw [getElem_ntt _ _ _ hk2, getElem_ntt _ _ _ hk3]
          rw [length_ntt, length_resize] at hk2
          rw [mul_comm]
          exact hablen (root ^ k)
        · rw [List.getD_eq_default _ _ (by omega)]
      intro k
      rw [getD_take]
      by_cases hk : k < deg + 1
      · rw [if_pos hk]
        by_cases hk2 : k < (intt (((ntt (resize b order) root).zip
            (ntt (resize a order) root)).map (fun rl => rl.1 * rl.2)) root).length
        · rw [List.getD_eq_getElem _ _ hk2, getElem_intt _ _ _ hk2]
          rw [evaluate_zero_list _ hhadamard]
          ring
        · rw [List.getD_eq_default _ _ (le_of_not_lt hk2)]
      · rw [if_neg hk]
    · push_neg at hzero
      have hda : 0 ≤ degree a := hzero.1
      have hdb : 0 ≤ degree b := hzero.2
      set nm := naive_multiply a b with hnm
      have hnmlen : nm.length = deg + 1 := by
        rw [hnm, naive_multiply_length a b hda hdb]
        rw [hdegdef]
        omega
      have htrim_a : (trim a).length ≤ order :=
        le_trans (by rw [trim_length_eq_degree a hda]; omega) hdeg1
      have htrim_b : (trim b).length ≤ order :=
        le_trans (by rw [trim_length_eq_degree b hdb]; omega) hdeg1
      have htrim_nm : (trim nm).length ≤ order :=
        le_trans (le_trans (trim_length_le nm) (le_of_eq hnmlen)) hdeg1
      have hstep1 : (((ntt (resize b order) root).zip
          (ntt (resize a order) root)).map (fun rl => rl.1 * rl.2)) =
          ntt (resize nm order) root := by
        apply List.ext_getElem
        · simp only [List.length_map, List.length_zip, length_ntt, length_resize]
          simp
        · intro j hj1 hj2
          simp only [List.getElem_map, List.getElem_zip]
          have hjo : j < order := by
            rw [length_ntt, length_resize] at hj2
            exact hj2
          rw [getElem_ntt _ _ _ (by rw [length_ntt, length_resize]; exact hjo),
            getElem_ntt _ _ _ (by rw [length_ntt, length_resize]; exact hjo),
            getElem_ntt _ _ _ (by rw [length_ntt, length_resize]; exact hjo)]
          rw [evaluate_eq_eval, evaluate_eq_eval, evaluate_eq_eval]
          rw [toPoly_resize a order htrim_a, toPoly_resize b order htrim_b,
            toPoly_resize nm order htrim_nm]
          rw [hnm, toPoly_naive_multiply]
          rw [Polynomial.eval_mul]
          ring
      rw [hstep1]
      have hstep2 : intt (ntt (resize nm order) root) root = resize nm order :=
        intt_ntt (length_resize nm order) hroot hchar
      rw [hstep2]
      have hnmle : nm.length ≤ order := by omega
      have hstep3 : (resize nm order).take (deg + 1) = nm := by
        have h1 : resize nm order = nm ++ List.replicate (order - nm.length) 0 := by
          rw [resize, List.take_of_length_le hnmle]
        rw [h1]
        have h2 : deg + 1 = nm.length := hnmlen.symm
        rw [h2]
        exact List.take_left nm _
      rw [hstep3, hnm, toPoly_naive_multiply]

theorem polyEq_refl (p : List F) : polyEq p p = true :=
  polyEq_of_toPoly_eq rfl

theorem isPrimitiveRoot_of_checks (ζ : F) (k : ℕ) (hk : 0 < k) (h1 : ζ ^ k = 1)
    (h2 : ∀ l < k, 0 < l → ζ ^ l ≠ 1) : IsPrimitiveRoot ζ k :=
  IsPrimitiveRoot.mk_of_lt ζ hk h1 (fun l hl hlk => h2 l hlk hl)

/-- C1: for every pair of coefficient vectors, `fast_multiply` equals
`naive_multiply` as polynomials (Rust `==`: equal canonical degree and
coefficients up to it), and hence the dispatching `multiply` computes the same
product on every input; the hypotheses state that the root provider returns a
primitive root of the required order and that this order is invertible in the
field, which is what `BFieldElement::primitive_root_of_unity` guarantees when
it does not panic. -/
theorem C1_fast_multiply_agrees_with_naive (R : ℕ → F) (a b : List F)
    (hroot : IsPrimitiveRoot (R (mul_order a b)) (mul_order a b))
    (hchar : ((mul_order a b : ℕ) : F) ≠ 0) :
    polyEq (fast_multiply R a b) (naive_multiply a b) = true ∧
    polyEq (multiply R a b) (naive_multiply a b) = true := by
  have h1 : toPoly (fast_multiply R a b) = toPoly (naive_multiply a b) := by
    rw [toPoly_fast_multiply R a b hroot hchar, toPoly_naive_multiply]
  refine ⟨polyEq_of_toPoly_eq h1, ?_⟩
  rw [multiply]
  by_cases h : degree a + degree b < 256
  · rw [if_pos h]
    exact polyEq_refl _
  · rw [if_neg h]
    exact polyEq_of_toPoly_eq h1

section WitnessRoots

/-- Concrete root provider over `ZMod 17` used by witnesses: primitive roots of
unity of each power-of-two order up to 16. -/
def R17 : ℕ → ZMod 17 := fun n =>
  if n = 1 then 1 else if n = 2 then 16 else if n = 4 then 4 else if n = 8 then 2 else 3

theorem R17_prim4 : IsPrimitiveRoot (R17 4) 4 :=
  isPrimitiveRoot_of_checks _ _ (by norm_num) (by decide) (by decide)

/-- Witness for C1 at the concrete input `a = 1 + 2x`, `b = 3 + 4x` over
`ZMod 17`, whose product needs NTT order 4 with primitive root 4. -/
theorem C1_witness :
    (IsPrimitiveRoot (R17 (mul_order ([1, 2] : List (ZMod 17)) [3, 4]))
        (mul_order ([1, 2] : List (ZMod 17)) [3, 4]) ∧
      ((mul_order ([1, 2] : List (ZMod 17)) [3, 4] : ℕ) : ZMod 17) ≠ 0) ∧
    polyEq (fast_multiply R17 [1, 2] [3, 4]) (naive_multiply [1, 2] [3, 4]) = true ∧
    polyEq (multiply R17 [1, 2] [3, 4]) (naive_multiply [1, 2] [3, 4]) = true := by
  have horder : mul_order ([1, 2] : List (ZMod 17)) [3, 4] = 4 := by decide
  have hroot : IsPrimitiveRoot (R17 (mul_order ([1, 2] : List (ZMod 17)) [3, 4]))
      (mul_order ([1, 2] : List (ZMod 17)) [3, 4]) := by
    rw [horder]
    exact R17_prim4
  have hchar : ((mul_order ([1, 2] : List (ZMod 17)) [3, 4] : ℕ) : ZMod 17) ≠ 0 := by
    rw [horder]
    decide
  exact ⟨⟨hroot, hchar⟩,
    C1_fast_multiply_agrees_with_naive R17 [1, 2] [3, 4] hroot hchar⟩

end WitnessRoots

/-- Source `Polynomial::scale`: coefficient `i` is multiplied by `alpha^i`, so
that evaluating the result corresponds to evaluating the original at
`alpha·x`. -/
def scale (alpha : F) (p : List F) : List F :=
  (List.range p.length).map (fun i => p.getD i 0 * alpha ^ i)

theorem evaluate_scale (alpha : F) (p : List F) (x : F) :
    evaluate (scale alpha p) x = evaluate p (alpha * x) := by
  rw [evaluate_eq_sum, evaluate_eq_sum]
  rw [scale]
  rw [List.length_map, List.length_range]
  apply Finset.sum_congr rfl
  intro m hm
  rw [Finset.mem_range] at hm
  rw [List.getD_eq_getElem _ _ (by simp [scale]; omega)]
  simp only [scale, List.getElem_map, List.getElem_range]
  rw [List.getD_eq_getElem _ _ hm, mul_pow]
  ring

theorem trim_length_le_iff (p : List F) (n : ℕ) :
    (trim p).length ≤ n ↔ ∀ k, n ≤ k → p.getD k 0 = 0 := by
  constructor
  · intro h k hk
    exact getD_eq_zero_of_trim_length_le p k (by omega)
  · intro h
    by_contra hc
    push_neg at hc
    have hne : trim p ≠ [] := by
      intro hnil
      rw [hnil] at hc
      simp at hc
    have hlast := trim_getLast_ne_zero p hne
    rw [List.getLast_eq_getElem] at hlast
    apply hlast
    rw [← List.getD_eq_getElem _ 0 (by omega), getD_trim]
    exact h _ (by omega)

theorem trim_scale_le (alpha : F) (p : List F) :
    (trim (scale alpha p)).length ≤ (trim p).length := by
  rw [trim_length_le_iff]
  intro k hk
  by_cases hkp : k < p.length
  · rw [List.getD_eq_getElem _ _ (by simp [scale]; omega)]
    simp only [scale, List.getElem_map, List.getElem_range]
    rw [getD_eq_zero_of_trim_length_le p k hk]
    ring
  · rw [List.getD_eq_default]
    simp [scale]
    omega

/-- Source `Polynomial::fast_coset_evaluate`: asserts that the domain order
strictly exceeds the polynomial's degree (panic modelled as `none`), then
scales by the offset, zero-pads to the order, and forward-transforms over the
generator's subgroup. -/
def fast_coset_evaluate (offset generator : F) (order : ℕ) (p : List F) :
    Option (List F) :=
  if (order : ℤ) > degree p then
    some (ntt (resize (scale offset p) order) generator)
  else
    none

/-- C10: `fast_coset_evaluate` panics exactly when the order does not strictly
exceed the polynomial's degree; otherwise it returns exactly `order` field
elements, the `i`-th being the evaluation of the polynomial at the coset point
`offset · generator^i`. -/
theorem C10_fast_coset_evaluate (offset generator : F) (order : ℕ) (p : List F) :
    (fast_coset_evaluate offset generator order p = none ↔ (order : ℤ) ≤ degree p) ∧
    ((order : ℤ) > degree p →
      ∃ l, fast_coset_evaluate offset generator order p = some l ∧ l.length = order ∧
        ∀ (i : ℕ), i < order → l[i]? = some (evaluate p (offset * generator ^ i))) := by
  constructor
  · rw [fast_coset_evaluate]
    by_cases h : (order : ℤ) > degree p
    · rw [if_pos h]
      constructor
      · intro hc
        cases hc
      · intro hc
        omega
    · rw [if_neg h]
      constructor
      · intro _
        omega
      · intro _
        rfl
  · intro h
    refine ⟨ntt (resize (scale offset p) order) generator, ?_, ?_, ?_⟩
    · rw [fast_coset_evaluate, if_pos h]
    · rw [length_ntt, length_resize]
    · intro i hi
      have hlen : i < (ntt (resize (scale offset p) order) generator).length := by
        rw [length_ntt, length_resize]
        exact hi
      rw [List.getElem?_eq_getElem hlen, getElem_ntt _ _ _ hlen]
      congr 1
      have htl : (trim (scale offset p)).length ≤ order := by
        apply le_trans (trim_scale_le offset p)
        rw [degree_def] at h
        omega
      rw [evaluate_eq_eval, toPoly_resize _ _ htl, ← evaluate_eq_eval]
      exact evaluate_scale offset p (generator ^ i)

/-- Witness for C10 at a concrete coset: polynomial `1 + 2x` over `ZMod 17`,
offset 2, generator 16 (a primitive square root of unity), order 2. -/
theorem C10_witness :
    ((2 : ℤ) > degree ([1, 2] : List (ZMod 17))) ∧
    (∃ l, fast_coset_evaluate (2 : ZMod 17) 16 2 [1, 2] = some l ∧ l.length = 2 ∧
      ∀ (i : ℕ), i < 2 → l[i]? = some (evaluate [1, 2] (2 * 16 ^ i))) :=
  ⟨by decide, (C10_fast_coset_evaluate 2 16 2 [1, 2]).2 (by decide)⟩

/-! Zerofier algorithms, from `math/polynomial.rs`. -/

/-- One in-place pass of `smart_zerofier`'s inner loop, functionally: index 0
becomes `-root·z₀`, indices `1..=num` become `z_{k-1} - root·z_k`, higher
indices are untouched. -/
def smartApply (root : F) (z : List F) (num : ℕ) : List F :=
  (List.range z.length).map (fun k =>
    if k = 0 then -root * z.getD 0 0
    else if k ≤ num then z.getD (k - 1) 0 - root * z.getD k 0
    else z.getD k 0)

/-- The outer loop of `smart_zerofier`: one `smartApply` per root, with
`num_coeffs` incremented each time. -/
def smartGo : List F → List F → ℕ → List F
  | [], z, _ => z
  | r :: rs, z, num => smartGo rs (smartApply r z num) (num + 1)

/-- Source `Polynomial::smart_zerofier`: single-pass in-place coefficient
update over a buffer of `roots.len() + 1` entries initialised to `[1, 0, …]`. -/
def smart_zerofier (roots : List F) : List F :=
  smartGo roots ((1 : F) :: List.replicate roots.length 0) 1

/-- Source `Polynomial::naive_zerofier`: fold the linear factors `[-r, 1]`
with the naive product, `one` for the empty domain. -/
def naive_zerofier (domain : List F) : List F :=
  match domain.map (fun r => [-r, (1 : F)]) with
  | [] => [1]
  | x :: xs => xs.foldl (fun acc lin => naive_multiply acc lin) x

/-- Multiplication by the monic linear factor `X - r`, in coefficient form. -/
def mulLinear (r : F) (P : List F) : List F :=
  (List.range (P.length + 1)).map (fun k =>
    (if k = 0 then 0 else P.getD (k - 1) 0) - r * P.getD k 0)

theorem length_mulLinear (r : F) (P : List F) : (mulLinear r P).length = P.length + 1 := by
  rw [mulLinear]
  simp

theorem toPoly_mulLinear (r : F) (P : List F) :
    toPoly (mulLinear r P) = (Polynomial.X - Polynomial.C r) * toPoly P := by
  apply Polynomial.ext
  intro k
  rw [coeff_toPoly, mulLinear, getD_map_range]
  rw [sub_mul, Polynomial.coeff_sub, Polynomial.coeff_C_mul, coeff_toPoly]
  have hXmul : (Polynomial.X * toPoly P).coeff k =
      if k = 0 then 0 else P.getD (k - 1) 0 := by
    cases k with
    | zero => simp
    | succ m =>
        rw [Polynomial.coeff_X_mul, coeff_toPoly]
        simp
  rw [hXmul]
  by_cases hk : k < P.length + 1
  · rw [if_pos hk]
  · rw [if_neg hk]
    push_neg at hk
    rw [List.getD_eq_default _ _ (by omega)]
    have h0 : ¬ k = 0 := by omega
    rw [if_neg h0, List.getD_eq_default _ _ (by omega)]
    ring

theorem smartApply_eq (r : F) (P : List F) (m : ℕ) (hm : 1 ≤ m) :
    smartApply r (P ++ List.replicate m 0) P.length =
      mulLinear r P ++ List.replicate (m - 1) 0 := by
  apply List.ext_getElem
  · simp only [smartApply, mulLinear, List.length_map, List.length_range,
      List.length_append, List.length_replicate]
    omega
  · intro k hk1 hk2
    have hlen : (P ++ List.replicate m (0 : F)).length = P.length + m := by simp
    have hk : k < P.length + m := by
      rw [smartApply] at hk1
      simp at hk1
      omega
    simp only [smartApply, List.getElem_map, List.getElem_range]
    have hgz : ∀ j : ℕ, (P ++ List.replicate m (0 : F)).getD j 0 = P.getD j 0 := by
      intro j
      by_cases hj : j < P.length
      · exact List.getD_append _ _ _ _ hj
      · rw [List.getD_eq_default P _ (by omega)]
        by_cases hj2 : j < P.length + m
        · rw [List.getD_eq_getElem _ _ (by simp; omega),
            List.getElem_append_right (by omega : P.length ≤ j)]
          simp
        · rw [List.getD_eq_default _ _ (by simp; omega)]
    by_cases hsm : k < P.length + 1
    · rw [List.getElem_append_left (by rw [length_mulLinear]; omega)]
      simp only [mulLinear, List.getElem_map, List.getElem_range]
      by_cases h0 : k = 0
      · rw [if_pos h0, if_pos h0, hgz]
        subst h0
        simp
      · rw [if_neg h0, if_neg h0]
        have hkle : k ≤ P.length := by omega
        rw [if_pos hkle, hgz, hgz]
    · push_neg at hsm
      rw [List.getElem_append_right (by rw [length_mulLinear]; omega)]
      rw [List.getElem_replicate]
      have h0 : ¬ k = 0 := by omega
      have hkle : ¬ k ≤ P.length := by omega
      rw [if_neg h0, if_neg hkle, hgz]
      rw [List.getD_eq_default P _ (by omega)]

theorem smartGo_eq : ∀ (roots P : List F) (m : ℕ), roots.length ≤ m →
    smartGo roots (P ++ List.replicate m 0) P.length =
      (roots.foldl (fun acc r => mulLinear r acc) P) ++
        List.replicate (m - roots.length) 0 := by
  intro roots
  induction roots with
  | nil =>
      intro P m _
      rw [smartGo, List.foldl_nil]
      simp
  | cons r rs ih =>
      intro P m hm
      rw [smartGo, smartApply_eq r P m (by simp at hm; omega)]
      have hlen : (mulLinear r P).length = P.length + 1 := length_mulLinear r P
      rw [← hlen]
      rw [ih (mulLinear r P) (m - 1) (by simp at hm; omega)]
      rw [List.foldl_cons]
      congr 1
      congr 1
      simp
      omega

theorem toPoly_foldl_mulLinear : ∀ (roots : List F) (P : List F),
    toPoly (roots.foldl (fun acc r => mulLinear r acc) P) =
      toPoly P * (roots.map (fun r => Polynomial.X - Polynomial.C r)).prod := by
  intro roots
  induction roots with
  | nil =>
      intro P
      simp
  | cons r rs ih =>
      intro P
      rw [List.foldl_cons, ih (mulLinear r P), toPoly_mulLinear]
      rw [List.map_cons, List.prod_cons]
      ring

theorem toPoly_smart_zerofier (roots : List F) :
    toPoly (smart_zerofier roots) =
      (roots.map (fun r => Polynomial.X - Polynomial.C r)).prod := by
  rw [smart_zerofier]
  have h1 : (1 : F) :: List.replicate roots.length 0 =
      [(1 : F)] ++ List.replicate roots.length 0 := rfl
  rw [h1]
  have h2 : ([(1 : F)]).length = 1 := rfl
  rw [← h2, smartGo_eq roots [(1 : F)] roots.length (le_refl _)]
  rw [toPoly_append_replicate_zero, toPoly_foldl_mulLinear]
  have h3 : toPoly [(1 : F)] = 1 := by
    apply Polynomial.ext
    intro n
    rw [coeff_toPoly]
    cases n with
    | zero => simp
    | succ m => simp [Polynomial.coeff_one]
  rw [h3, one_mul]

theorem toPoly_naive_zerofier (domain : List F) :
    toPoly (naive_zerofier domain) =
      (domain.map (fun r => Polynomial.X - Polynomial.C r)).prod := by
  have hlin : ∀ r : F, toPoly [-r, (1 : F)] = Polynomial.X - Polynomial.C r := by
    intro r
    apply Polynomial.ext
    intro n
    rw [coeff_toPoly]
    match n with
    | 0 => simp
    | 1 => simp
    | (m + 2) =>
        simp only [List.getD_eq_default _ _ (by simp : ([-r, (1:F)]).length ≤ m + 2)]
        rw [Polynomial.coeff_sub, Polynomial.coeff_X, Polynomial.coeff_C]
        simp
  have hfold : ∀ (xs : List (List F)) (acc : List F),
      toPoly (xs.foldl (fun acc lin => naive_multiply acc lin) acc) =
        toPoly acc * (xs.map toPoly).prod := by
    intro xs
    induction xs with
    | nil => intro acc; simp
    | cons x xs ih =>
        intro acc
        rw [List.foldl_cons, ih, toPoly_naive_multiply]
        rw [List.map_cons, List.prod_cons]
        ring
  rw [naive_zerofier]
  cases hd : domain.map (fun r => [-r, (1 : F)]) with
  | nil =>
      have : domain = [] := by
        cases domain with
        | nil => rfl
        | cons a l => simp at hd
      subst this
      simp
      apply Polynomial.ext
      intro n
      rw [coeff_toPoly]
      cases n with
      | zero => simp
      | succ m => simp [Polynomial.coeff_one]
  | cons x xs =>
      rw [hfold xs x]
      have : toPoly x * (xs.map toPoly).prod = ((x :: xs).map toPoly).prod := by
        rw [List.map_cons, List.prod_cons]
      rw [this, ← hd, List.map_map]
      congr 1
      apply List.map_congr_left
      intro r _
      exact hlin r

theorem log_2_ceil_rec_min (fuel : ℕ) :
    ∀ n k : ℕ, n ≤ fuel + 1 → n ≤ 2 ^ k → log_2_ceil_rec fuel n ≤ k := by
  induction fuel with
  | zero =>
      intro n k _ _
      rw [log_2_ceil_rec]
      omega
  | succ fuel ih =>
      intro n k hn hk
      rw [log_2_ceil_rec]
      by_cases h1 : n ≤ 1
      · rw [if_pos h1]
        omega
      · rw [if_neg h1]
        push_neg at h1
        have hkpos : 1 ≤ k := by
          by_contra hc
          push_neg at hc
          interval_cases k
          simp at hk
          omega
        have h2k : 2 ^ k = 2 * 2 ^ (k - 1) := by
          rw [← pow_succ']
          congr 1
          omega
        have hrec := ih ((n + 1) / 2) (k - 1) (by omega) (by omega)
        omega

theorem log_2_ceil_min (n k : ℕ) (h : n ≤ 2 ^ k) : log_2_ceil n ≤ k := by
  rw [log_2_ceil]
  exact log_2_ceil_rec_min n n k (by omega) h

theorem next_power_of_two_mono {m n : ℕ} (h : m ≤ n) :
    next_power_of_two m ≤ next_power_of_two n := by
  rw [next_power_of_two, next_power_of_two]
  apply Nat.pow_le_pow_right (by norm_num)
  apply log_2_ceil_min
  exact le_trans h (le_next_power_of_two n)

/-- The root provider `R` (modelling `BFieldElement::primitive_root_of_unity`)
delivers a primitive root of unity of every power-of-two order up to `B`, and
each such order is invertible in `F`. -/
def GoodRoots (R : ℕ → F) (B : ℕ) : Prop :=
  ∀ k : ℕ, 2 ^ k ≤ B → IsPrimitiveRoot (R (2 ^ k)) (2 ^ k) ∧ ((2 ^ k : ℕ) : F) ≠ 0

theorem toPoly_multiply (R : ℕ → F) (B : ℕ) (hgood : GoodRoots R B) (a b : List F)
    (hbound : mul_order a b ≤ B) :
    toPoly (multiply R a b) = toPoly a * toPoly b := by
  rw [multiply]
  by_cases h : degree a + degree b < 256
  · rw [if_pos h]
    exact toPoly_naive_multiply a b
  · rw [if_neg h]
    have hpow : mul_order a b = 2 ^ log_2_ceil ((degree a + degree b).toNat + 1) := rfl
    obtain ⟨h1, h2⟩ := hgood (log_2_ceil ((degree a + degree b).toNat + 1))
      (by rw [← hpow]; exact hbound)
    rw [hpow] at *
    exact toPoly_fast_multiply R a b h1 h2

/-- The recursion of `Polynomial::zerofier`, structural on a fuel argument so
that it kernel-reduces; the fuel-zero arm is unreachable from the wrapper
because each split removes at least 100 points from a half. -/
def zerofier_rec (R : ℕ → F) : ℕ → List F → List F
  | 0, roots => smart_zerofier roots
  | fuel+1, roots =>
      if roots.length < 200 then smart_zerofier roots
      else
        multiply R (zerofier_rec R fuel (roots.take (roots.length / 2)))
          (zerofier_rec R fuel (roots.drop (roots.length / 2)))

/-- Source `Polynomial::zerofier`: dispatch between the smart and the
divide-and-conquer algorithm at `FAST_ZEROFIER_CUTOFF_THRESHOLD = 200`
points; the recursive arm splits the point set at its midpoint and multiplies
the halves' zerofiers with the dispatching `multiply`. -/
def zerofier (R : ℕ → F) (roots : List F) : List F :=
  zerofier_rec R roots.length roots

theorem zerofier_rec_fuel (R : ℕ → F) :
    ∀ fuel fuel' (roots : List F), roots.length ≤ fuel → roots.length ≤ fuel' →
      zerofier_rec R fuel roots = zerofier_rec R fuel' roots := by
  intro fuel
  induction fuel with
  | zero =>
      intro fuel' roots h h'
      have hlen : roots.length = 0 := by omega
      cases fuel' with
      | zero => rfl
      | succ fuel' =>
          rw [zerofier_rec, zerofier_rec, if_pos (by omega)]
  | succ fuel ih =>
      intro fuel' roots h h'
      cases fuel' with
      | zero =>
          have hlen : roots.length = 0 := by omega
          rw [zerofier_rec, zerofier_rec, if_pos (by omega)]
      | succ fuel' =>
          rw [zerofier_rec, zerofier_rec]
          by_cases h200 : roots.length < 200
          · rw [if_pos h200, if_pos h200]
          · rw [if_neg h200, if_neg h200]
            push_neg at h200
            have htk : (roots.take (roots.length / 2)).length ≤ roots.length - 100 := by
              simp only [List.length_take]
              omega
            have hdp : (roots.drop (roots.length / 2)).length ≤ roots.length - 100 := by
              simp only [List.length_drop]
              omega
            rw [ih fuel' _ (by omega) (by omega), ih fuel' _ (by omega) (by omega)]

/-- The defining equation of the dispatching zerofier. -/
theorem zerofier_unfold (R : ℕ → F) (roots : List F) :
    zerofier R roots =
      if roots.length < 200 then smart_zerofier roots
      else
        multiply R (zerofier R (roots.take (roots.length / 2)))
          (zerofier R (roots.drop (roots.length / 2))) := by
  rw [zerofier,
    zerofier_rec_fuel R roots.length (roots.length + 1) roots (le_refl _) (by omega),
    zerofier_rec]
  by_cases h200 : roots.length < 200
  · rw [if_pos h200, if_pos h200]
  · rw [if_neg h200, if_neg h200]
    push_neg at h200
    have htk : (roots.take (roots.length / 2)).length ≤ roots.length := by
      simp only [List.length_take]
      omega
    have hdp : (roots.drop (roots.length / 2)).length ≤ roots.length := by
      simp only [List.length_drop]
      omega
    rw [zerofier, zerofier,
      zerofier_rec_fuel R roots.length (roots.take (roots.length / 2)).length
        (roots.take (roots.length / 2)) htk (le_refl _),
      zerofier_rec_fuel R roots.length (roots.drop (roots.length / 2)).length
        (roots.drop (roots.length / 2)) hdp (le_refl _)]

/-- Source `Polynomial::fast_zerofier`: split at the midpoint, zerofy each
half via the dispatching `zerofier`, multiply the halves. -/
def fast_zerofier (R : ℕ → F) (roots : List F) : List F :=
  multiply R (zerofier R (roots.take (roots.length / 2)))
    (zerofier R (roots.drop (roots.length / 2)))

theorem natDegree_linear_prod_le (roots : List F) :
    ((roots.map (fun r => Polynomial.X - Polynomial.C r)).prod).natDegree ≤ roots.length := by
  apply le_trans (Polynomial.natDegree_list_prod_le _)
  rw [List.map_map]
  have : ∀ r ∈ roots, (Polynomial.natDegree ∘ fun r => Polynomial.X - Polynomial.C r) r = 1 := by
    intro r _
    simp [Polynomial.natDegree_X_sub_C]
  calc (roots.map (Polynomial.natDegree ∘ fun r => Polynomial.X - Polynomial.C r)).sum
      = (roots.map (fun _ => 1)).sum := by
        congr 1
        exact List.map_congr_left this
    _ ≤ roots.length := by
        have hsum : ∀ l : List F, (l.map (fun _ => (1 : ℕ))).sum = l.length := by
          intro l
          induction l with
          | nil => rfl
          | cons r rs ihr =>
              simp only [List.map_cons, List.sum_cons, List.length_cons]
              omega
        rw [hsum]

theorem trim_length_le_of_linear_prod (l : List F) (roots : List F)
    (h : toPoly l = (roots.map (fun r => Polynomial.X - Polynomial.C r)).prod) :
    (trim l).length ≤ roots.length + 1 := by
  rw [trim_length_le_iff]
  intro k hk
  rw [← coeff_toPoly, h]
  apply Polynomial.coeff_eq_zero_of_natDegree_lt
  have := natDegree_linear_prod_le roots
  omega

/-- Semantic correctness of the dispatching zerofier, by strong induction on
the number of points. -/
theorem toPoly_zerofier (R : ℕ → F) (B : ℕ) (hgood : GoodRoots R B) :
    ∀ (n : ℕ) (roots : List F), roots.length = n →
      next_power_of_two (roots.length + 1) ≤ B →
      toPoly (zerofier R roots) =
        (roots.map (fun r => Polynomial.X - Polynomial.C r)).prod := by
  intro n
  induction n using Nat.strong_induction_on with
  | _ n ih =>
      intro roots hlen hbound
      rw [zerofier_unfold]
      by_cases h200 : roots.length < 200
      · rw [if_pos h200]
        exact toPoly_smart_zerofier roots
      · rw [if_neg h200]
        push_neg at h200
        set mid := roots.length / 2 with hmid
        have htk : (roots.take mid).length = mid := by
          simp only [List.length_take]
          omega
        have hdp : (roots.drop mid).length = roots.length - mid := by
          simp only [List.length_drop]
        have hleft := ih (roots.take mid).length (by omega) (roots.take mid) rfl
          (le_trans (next_power_of_two_mono (by omega)) hbound)
        have hright := ih (roots.drop mid).length (by omega) (roots.drop mid) rfl
          (le_trans (next_power_of_two_mono (by omega)) hbound)
        have hdl : degree (zerofier R (roots.take mid)) ≤ ((roots.take mid).length : ℤ) := by
          have := trim_length_le_of_linear_prod _ _ hleft
          rw [degree_def]
          push_cast
          omega
        have hdr : degree (zerofier R (roots.drop mid)) ≤ ((roots.drop mid).length : ℤ) := by
          have := trim_length_le_of_linear_prod _ _ hright
          rw [degree_def]
          push_cast
          omega
        have horder : mul_order (zerofier R (roots.take mid)) (zerofier R (roots.drop mid)) ≤ B := by
          apply le_trans _ hbound
          rw [mul_order]
          apply next_power_of_two_mono
          have hsplit : (roots.take mid).length + (roots.drop mid).length = roots.length := by
            omega
          omega
        rw [toPoly_multiply R B hgood _ _ horder, hleft, hright]
        rw [← List.prod_append, ← List.map_append, List.take_append_drop]

/-- Variant for the standalone `fast_zerofier` entry point. -/
theorem toPoly_fast_zerofier (R : ℕ → F) (B : ℕ) (hgood : GoodRoots R B)
    (roots : List F) (hbound : next_power_of_two (roots.length + 1) ≤ B) :
    toPoly (fast_zerofier R roots) =
      (roots.map (fun r => Polynomial.X - Polynomial.C r)).prod := by
  rw [fast_zerofier]
  set mid := roots.length / 2 with hmid
  have htk : (roots.take mid).length = mid := by
    simp only [List.length_take]
    omega
  have hdp : (roots.drop mid).length = roots.length - mid := by
    simp only [List.length_drop]
  have hleft := toPoly_zerofier R B hgood (roots.take mid).length (roots.take mid) rfl
    (le_trans (next_power_of_two_mono (by omega)) hbound)
  have hright := toPoly_zerofier R B hgood (roots.drop mid).length (roots.drop mid) rfl
    (le_trans (next_power_of_two_mono (by omega)) hbound)
  have horder : mul_order (zerofier R (roots.take mid)) (zerofier R (roots.drop mid)) ≤ B := by
    apply le_trans _ hbound
    rw [mul_order]
    apply next_power_of_two_mono
    have h1 := trim_length_le_of_linear_prod _ _ hleft
    have h2 := trim_length_le_of_linear_prod _ _ hright
    have hdl : degree (zerofier R (roots.take mid)) ≤ ((roots.take mid).length : ℤ) := by
      rw [degree_def]
      push_cast
      omega
    have hdr : degree (zerofier R (roots.drop mid)) ≤ ((roots.drop mid).length : ℤ) := by
      rw [degree_def]
      push_cast
      omega
    omega
  rw [toPoly_multiply R B hgood _ _ horder, hleft, hright]
  rw [← List.prod_append, ← List.map_append, List.take_append_drop]

theorem evaluate_of_linear_prod (l : List F) (roots : List F) (x : F)
    (h : toPoly l = (roots.map (fun r => Polynomial.X - Polynomial.C r)).prod) :
    evaluate l x = (roots.map (fun r => x - r)).prod := by
  rw [evaluate_eq_eval, h, Polynomial.eval_list_prod, List.map_map]
  congr 1
  apply List.map_congr_left
  intro r _
  simp

/-- C4: the three zerofier algorithms agree (as polynomials under Rust `==`)
on every point multiset — below and above the 200-point fast-path cutoff —
and the common zerofier vanishes exactly on the multiset's elements.  The
hypotheses express that the root provider supplies genuine primitive roots of
unity for every power-of-two order that the transform-based multiplications
inside `fast_zerofier` can request. -/
theorem C4_zerofier_agreement (R : ℕ → F) (B : ℕ) (hgood : GoodRoots R B)
    (roots : List F) (hbound : next_power_of_two (roots.length + 1) ≤ B) :
    polyEq (naive_zerofier roots) (smart_zerofier roots) = true ∧
    polyEq (smart_zerofier roots) (fast_zerofier R roots) = true ∧
    polyEq (naive_zerofier roots) (fast_zerofier R roots) = true ∧
    (∀ x ∈ roots, evaluate (smart_zerofier roots) x = 0) ∧
    (∀ x : F, x ∉ roots → evaluate (smart_zerofier roots) x ≠ 0) := by
  have h1 := toPoly_naive_zerofier roots
  have h2 := toPoly_smart_zerofier roots
  have h3 := toPoly_fast_zerofier R B hgood roots hbound
  refine ⟨polyEq_of_toPoly_eq (by rw [h1, h2]),
    polyEq_of_toPoly_eq (by rw [h2, h3]),
    polyEq_of_toPoly_eq (by rw [h1, h3]), ?_, ?_⟩
  · intro x hx
    rw [evaluate_of_linear_prod _ _ _ h2]
    apply List.prod_eq_zero
    rw [List.mem_map]
    exact ⟨x, hx, sub_self x⟩
  · intro x hx
    rw [evaluate_of_linear_prod _ _ _ h2]
    intro hzero
    rw [List.prod_eq_zero_iff, List.mem_map] at hzero
    obtain ⟨r, hr, hr0⟩ := hzero
    apply hx
    have : x = r := by
      have := sub_eq_zero.1 hr0
      exact this
    rw [this]
    exact hr

section WitnessRootsGood

theorem R17_good : GoodRoots R17 16 := by
  intro k hk
  have hk4 : k ≤ 4 := by
    by_contra hc
    push_neg at hc
    have h32 : 2 ^ 5 ≤ 2 ^ k := Nat.pow_le_pow_right (by norm_num) (by omega)
    omega
  interval_cases k
  · exact ⟨isPrimitiveRoot_of_checks _ _ (by norm_num) (by decide) (by decide), by decide⟩
  · exact ⟨isPrimitiveRoot_of_checks _ _ (by norm_num) (by decide) (by decide), by decide⟩
  · exact ⟨isPrimitiveRoot_of_checks _ _ (by norm_num) (by decide) (by decide), by decide⟩
  · exact ⟨isPrimitiveRoot_of_checks _ _ (by norm_num) (by decide) (by decide), by decide⟩
  · exact ⟨isPrimitiveRoot_of_checks _ _ (by norm_num) (by decide) (by decide), by decide⟩

/-- Witness for C4 at the concrete two-point multiset `{1, 2}` over `ZMod 17`. -/
theorem C4_witness :
    (GoodRoots R17 16 ∧ next_power_of_two (([1, 2] : List (ZMod 17)).length + 1) ≤ 16) ∧
    (polyEq (naive_zerofier ([1, 2] : List (ZMod 17))) (smart_zerofier [1, 2]) = true ∧
     polyEq (smart_zerofier ([1, 2] : List (ZMod 17))) (fast_zerofier R17 [1, 2]) = true ∧
     polyEq (naive_zerofier ([1, 2] : List (ZMod 17))) (fast_zerofier R17 [1, 2]) = true ∧
     (∀ x ∈ ([1, 2] : List (ZMod 17)), evaluate (smart_zerofier [1, 2]) x = 0) ∧
     (∀ x : ZMod 17, x ∉ ([1, 2] : List (ZMod 17)) →
        evaluate (smart_zerofier [1, 2]) x ≠ 0)) :=
  ⟨⟨R17_good, by decide⟩, C4_zerofier_agreement R17 16 R17_good [1, 2] (by decide)⟩

end WitnessRootsGood

/-! Zerofier tree, from `math/zerofier_tree.rs`.  The `Arc<OnceLock<..>>`
wrappers are construction-time plumbing (the lock is initialised immediately);
the tree itself is the plain algebraic datatype. -/

inductive ZerofierTree (F : Type) where
  | leaf (points : List F) (zf : List F)
  | branch (zf : List F) (left right : ZerofierTree F)
  | padding

/-- Source `ZerofierTree::zerofier`: the stored vanishing polynomial, the
constant one for `Padding`. -/
def ZerofierTree.zerofier : ZerofierTree F → List F
  | ZerofierTree.leaf _ z => z
  | ZerofierTree.branch z _ _ => z
  | ZerofierTree.padding => [1]

/-- Rust `matches!(node, ZerofierTree::Padding)`. -/
def ZerofierTree.isPadding : ZerofierTree F → Bool
  | ZerofierTree.padding => true
  | _ => false

/-- One merge step of the bottom-up loop in `new_from_domain`: a `Padding`
left child propagates `Padding`, otherwise the children's zerofiers are
multiplied into a branch node. -/
def merge_node (R : ℕ → F) (left right : ZerofierTree F) : ZerofierTree F :=
  if left.isPadding then ZerofierTree.padding
  else ZerofierTree.branch (multiply R left.zerofier right.zerofier) left right

/-- Rust `domain.chunks(ZEROFIER_TREE_RECURSION_CUTOFF_THRESHOLD)` with
threshold 16. -/
def chunks16 {α : Type} (l : List α) : List (List α) :=
  if h : l.length = 0 then [] else l.take 16 :: chunks16 (l.drop 16)
termination_by l.length
decreasing_by
  simp only [List.length_drop]
  omega

/-- The `while nodes.len() > 1` merge loop of `new_from_domain`, popping the
two back nodes and pushing the merged node to the front. -/
def merge_loop (R : ℕ → F) (nodes : List (ZerofierTree F)) : ZerofierTree F :=
  if h : nodes.length ≤ 1 then nodes.headD ZerofierTree.padding
  else
    merge_loop R (merge_node R ((nodes.dropLast).getLastD ZerofierTree.padding)
      (nodes.getLastD ZerofierTree.padding) :: nodes.dropLast.dropLast)
termination_by nodes.length
decreasing_by
  simp only [List.length_cons, List.length_dropLast]
  omega

/-- Source `ZerofierTree::new_from_domain`: chunk the points, zerofy each
chunk into a leaf, pad the node list with `Padding` to the next power of two,
and run the merge loop. -/
def new_from_domain (R : ℕ → F) (domain : List F) : ZerofierTree F :=
  let leaves := (chunks16 domain).map (fun chunk =>
    ZerofierTree.leaf chunk (zerofier R chunk))
  merge_loop R (leaves ++
    List.replicate (next_power_of_two leaves.length - leaves.length) ZerofierTree.padding)

/-- One level of merges, processing the node list in adjacent pairs. -/
def level_merge (R : ℕ → F) : List (ZerofierTree F) → List (ZerofierTree F)
  | [] => []
  | [t] => [t]
  | l :: r :: rest => merge_node R l r :: level_merge R rest

theorem chunks16_flatten {α : Type} : ∀ (l : List α), (chunks16 l).flatten = l := by
  have main : ∀ (n : ℕ) (l : List α), l.length = n → (chunks16 l).flatten = l := by
    intro n
    induction n using Nat.strong_induction_on with
    | _ n ih =>
        intro l hn
        rw [chunks16]
        by_cases h : l.length = 0
        · rw [dif_pos h]
          have hnil : l = [] := List.length_eq_zero.1 h
          rw [hnil]
          rfl
        · rw [dif_neg h]
          rw [List.flatten_cons]
          rw [ih (l.drop 16).length (by simp; omega) (l.drop 16) rfl]
          exact List.take_append_drop 16 l
  intro l
  exact main l.length l rfl

theorem toPoly_one : toPoly [(1 : F)] = 1 := by
  apply Polynomial.ext
  intro n
  rw [coeff_toPoly]
  cases n with
  | zero => simp
  | succ m => simp [Polynomial.coeff_one]

theorem trim_length_eq_natDegree (p : List F) (h : toPoly p ≠ 0) :
    (trim p).length = (toPoly p).natDegree + 1 := by
  apply le_antisymm
  · rw [trim_length_le_iff]
    intro k hk
    rw [← coeff_toPoly]
    exact Polynomial.coeff_eq_zero_of_natDegree_lt (by omega)
  · have hlead : (toPoly p).coeff (toPoly p).natDegree ≠ 0 := by
      rw [← Polynomial.leadingCoeff]
      exact Polynomial.leadingCoeff_ne_zero.2 h
    rw [coeff_toPoly] at hlead
    have := trim_length_le_of_getD p _ hlead
    omega

theorem monic_linear_prod (roots : List F) :
    ((roots.map (fun r => Polynomial.X - Polynomial.C r)).prod).Monic := by
  induction roots with
  | nil => exact Polynomial.monic_one
  | cons r rs ih =>
      rw [List.map_cons, List.prod_cons]
      exact (Polynomial.monic_X_sub_C r).mul ih

theorem natDegree_linear_prod (roots : List F) :
    ((roots.map (fun r => Polynomial.X - Polynomial.C r)).prod).natDegree = roots.length := by
  induction roots with
  | nil => simp
  | cons r rs ih =>
      rw [List.map_cons, List.prod_cons,
        (Polynomial.monic_X_sub_C r).natDegree_mul (monic_linear_prod rs), ih,
        Polynomial.natDegree_X_sub_C]
      simp
      omega

theorem merge_loop_step (R : ℕ → F) (init : List (ZerofierTree F))
    (l r : ZerofierTree F) :
    merge_loop R (init ++ [l, r]) = merge_loop R (merge_node R l r :: init) := by
  rw [merge_loop]
  have hassoc : init ++ [l, r] = (init ++ [l]) ++ [r] := by simp
  rw [dif_neg (by simp)]
  rw [hassoc]
  rw [List.getLastD_concat, List.dropLast_concat, List.getLastD_concat,
    List.dropLast_concat]

theorem level_merge_concat_pair (R : ℕ → F) :
    ∀ (Y : List (ZerofierTree F)) (l r : ZerofierTree F), Y.length % 2 = 0 →
      level_merge R (Y ++ [l, r]) = level_merge R Y ++ [merge_node R l r] := by
  have main : ∀ (n : ℕ) (Y : List (ZerofierTree F)) (l r : ZerofierTree F),
      Y.length = n → Y.length % 2 = 0 →
      level_merge R (Y ++ [l, r]) = level_merge R Y ++ [merge_node R l r] := by
    intro n
    induction n using Nat.strong_induction_on with
    | _ n ih =>
        intro Y l r hlen heven
        match Y with
        | [] => rfl
        | [t] => simp at heven
        | a :: b :: Y2 =>
            have h2 : (a :: b :: Y2 ++ [l, r]) = a :: b :: (Y2 ++ [l, r]) := by simp
            rw [h2, level_merge, level_merge]
            rw [ih Y2.length (by simp at hlen; omega) Y2 l r rfl (by simp at heven; omega)]
            simp

  intro Y l r heven
  exact main Y.length Y l r rfl heven

theorem merge_loop_append (R : ℕ → F) :
    ∀ (n : ℕ) (X W : List (ZerofierTree F)), X.length = n → X.length % 2 = 0 →
      merge_loop R (W ++ X) = merge_loop R (level_merge R X ++ W) := by
  intro n
  induction n using Nat.strong_induction_on with
  | _ n ih =>
      intro X W hlen heven
      match X with
      | [] => simp [level_merge]
      | [t] => simp at heven
      | a :: b :: X2 =>
          have hne1 : (a :: b :: X2 : List (ZerofierTree F)) ≠ [] := by simp
          have hne2 : (a :: b :: X2 : List (ZerofierTree F)).dropLast ≠ [] := by
            intro hc
            have hcl := congrArg List.length hc
            rw [List.length_dropLast] at hcl
            simp at hcl
          set Y := (a :: b :: X2 : List (ZerofierTree F)).dropLast.dropLast with hY
          set lel := (a :: b :: X2 : List (ZerofierTree F)).dropLast.getLast hne2 with hl
          set rel := (a :: b :: X2 : List (ZerofierTree F)).getLast hne1 with hr
          have hdecomp : (a :: b :: X2 : List (ZerofierTree F)) = Y ++ [lel, rel] := by
            have hpair : Y ++ [lel, rel] = (Y ++ [lel]) ++ [rel] := by simp
            rw [hpair, hY, hl, hr]
            conv_lhs => rw [← List.dropLast_append_getLast hne1]
            congr 1
            conv_lhs => rw [← List.dropLast_append_getLast hne2]
          have hYlen : Y.length = X2.length := by
            rw [hY]
            simp only [List.length_dropLast]
            simp
          have hYeven : Y.length % 2 = 0 := by
            simp only [List.length_cons] at heven
            omega
          conv_lhs => rw [hdecomp]
          have hWX : W ++ (Y ++ [lel, rel]) = (W ++ Y) ++ [lel, rel] := by simp
          rw [hWX, merge_loop_step]
          have hcons : merge_node R lel rel :: (W ++ Y) =
              ((merge_node R lel rel :: W) ++ Y) := by simp
          rw [hcons]
          have hYn : Y.length < n := by
            simp only [List.length_cons] at hlen
            omega
          rw [ih Y.length hYn Y (merge_node R lel rel :: W) rfl hYeven]
          conv_rhs => rw [hdecomp]
          rw [level_merge_concat_pair R Y lel rel hYeven]
          congr 1
          simp

/-- The node list keeps all `Padding` nodes in a contiguous suffix. -/
def PadSuffix (nodes : List (ZerofierTree F)) : Prop :=
  ∃ ns ps : List (ZerofierTree F), nodes = ns ++ ps ∧
    (∀ t ∈ ns, t.isPadding = false) ∧ (∀ t ∈ ps, t = ZerofierTree.padding)

theorem level_merge_all_padding (R : ℕ → F) :
    ∀ nodes : List (ZerofierTree F), (∀ t ∈ nodes, t = ZerofierTree.padding) →
      ∀ t ∈ level_merge R nodes, t = ZerofierTree.padding := by
  have main : ∀ (n : ℕ) (nodes : List (ZerofierTree F)), nodes.length = n →
      (∀ t ∈ nodes, t = ZerofierTree.padding) →
      ∀ t ∈ level_merge R nodes, t = ZerofierTree.padding := by
    intro n
    induction n using Nat.strong_induction_on with
    | _ n ih =>
        intro nodes hlen hall t ht
        match nodes with
        | [] => cases ht
        | [s] =>
            rw [level_merge, List.mem_singleton] at ht
            exact ht ▸ hall s (by simp)
        | l :: r :: rest =>
            rw [level_merge] at ht
            rcases List.mem_cons.1 ht with ht | ht
            · have hl : l = ZerofierTree.padding := hall l (by simp)
              rw [ht, merge_node, hl]
              simp [ZerofierTree.isPadding]
            · exact ih rest.length (by simp only [List.length_cons] at hlen; omega)
                rest rfl (fun s hs => hall s (by simp [hs])) t ht
  intro nodes
  exact main nodes.length nodes rfl

theorem isPadding_true_iff (t : ZerofierTree F) :
    t.isPadding = true ↔ t = ZerofierTree.padding := by
  cases t <;> simp [ZerofierTree.isPadding]

theorem padSuffix_cons_cons (l r : ZerofierTree F) (rest : List (ZerofierTree F))
    (h : PadSuffix (l :: r :: rest)) :
    PadSuffix rest ∧
    (l.isPadding = true → l = ZerofierTree.padding ∧ r = ZerofierTree.padding ∧
      ∀ t ∈ rest, t = ZerofierTree.padding) := by
  obtain ⟨ns, ps, hsplit, hns, hps⟩ := h
  match ns, hsplit with
  | [], hsplit =>
      rw [List.nil_append] at hsplit
      have hall : ∀ t ∈ (l :: r :: rest), t = ZerofierTree.padding := by
        intro t ht
        apply hps
        rw [← hsplit]
        exact ht
      refine ⟨⟨[], rest, by simp, by simp, fun t ht => hall t (by simp [ht])⟩, fun _ =>
        ⟨hall l (by simp), hall r (by simp), fun t ht => hall t (by simp [ht])⟩⟩
  | [a], hsplit =>
      rw [List.singleton_append] at hsplit
      have hla : l = a := by injection hsplit
      have htail : r :: rest = ps := by injection hsplit
      have hall : ∀ t ∈ (r :: rest), t = ZerofierTree.padding := by
        intro t ht
        apply hps
        rw [htail] at ht
        exact ht
      refine ⟨⟨[], rest, by simp, by simp, fun t ht => hall t (by simp [ht])⟩, fun hlp => ?_⟩
      exfalso
      have := hns a (by simp)
      rw [← hla] at this
      rw [this] at hlp
      cases hlp
  | a :: c :: ns2, hsplit =>
      rw [List.cons_append, List.cons_append] at hsplit
      have hla : l = a := by injection hsplit
      have h1 : r :: rest = c :: (ns2 ++ ps) := by injection hsplit
      have hrc : r = c := by injection h1
      have hrest : rest = ns2 ++ ps := by injection h1
      refine ⟨⟨ns2, ps, hrest, fun t ht => hns t (by simp [ht]), hps⟩, fun hlp => ?_⟩
      exfalso
      have := hns a (by simp)
      rw [← hla] at this
      rw [this] at hlp
      cases hlp

theorem level_merge_spec (R : ℕ → F) (B : ℕ) (hgood : GoodRoots R B) (D : ℕ)
    (hB : next_power_of_two (D + 1) ≤ B) :
    ∀ (n : ℕ) (nodes : List (ZerofierTree F)), nodes.length = n →
      nodes.length % 2 = 0 →
      PadSuffix nodes →
      (∀ t ∈ nodes, (toPoly (ZerofierTree.zerofier t)).Monic) →
      ((nodes.map (fun t => (toPoly (ZerofierTree.zerofier t)).natDegree)).sum ≤ D) →
      PadSuffix (level_merge R nodes) ∧
      (∀ t ∈ level_merge R nodes, (toPoly (ZerofierTree.zerofier t)).Monic) ∧
      ((level_merge R nodes).map
        (fun t => (toPoly (ZerofierTree.zerofier t)).natDegree)).sum ≤
        ((nodes.map (fun t => (toPoly (ZerofierTree.zerofier t)).natDegree)).sum) ∧
      ((level_merge R nodes).map (fun t => toPoly (ZerofierTree.zerofier t))).prod =
        (nodes.map (fun t => toPoly (ZerofierTree.zerofier t))).prod ∧
      (level_merge R nodes).length * 2 = nodes.length := by
  intro n
  induction n using Nat.strong_induction_on with
  | _ n ih =>
      intro nodes hlen heven hpads hmonic hdeg
      match nodes with
      | [] =>
          refine ⟨⟨[], [], rfl, ?_, ?_⟩, ?_, ?_, ?_, ?_⟩ <;> simp [level_merge]
      | [t] => simp at heven
      | l :: r :: rest =>
          obtain ⟨hrestPS, hlpad⟩ := padSuffix_cons_cons l r rest hpads
          have hrest_len : rest.length % 2 = 0 := by
            simp only [List.length_cons] at heven
            omega
          have hrest_monic : ∀ t ∈ rest, (toPoly (ZerofierTree.zerofier t)).Monic :=
            fun t ht => hmonic t (by simp [ht])
          have hdl := hmonic l (by simp)
          have hdr := hmonic r (by simp)
          have hsum_cons : ((l :: r :: rest).map
              (fun t => (toPoly (ZerofierTree.zerofier t)).natDegree)).sum =
              (toPoly (ZerofierTree.zerofier l)).natDegree +
              ((toPoly (ZerofierTree.zerofier r)).natDegree +
              ((rest.map (fun t => (toPoly (ZerofierTree.zerofier t)).natDegree)).sum)) := by
            simp only [List.map_cons, List.sum_cons]
          have hrest_deg : ((rest.map
              (fun t => (toPoly (ZerofierTree.zerofier t)).natDegree)).sum) ≤ D := by
            rw [hsum_cons] at hdeg
            omega
          obtain ⟨ihPS, ihMonic, ihDeg, ihProd, ihLen⟩ :=
            ih rest.length (by simp only [List.length_cons] at hlen; omega) rest rfl
              hrest_len hrestPS hrest_monic hrest_deg
          have hlevel : level_merge R (l :: r :: rest) =
              merge_node R l r :: level_merge R rest := rfl
          by_cases hlp : l.isPadding = true
          · obtain ⟨hlpd, hrpd, hrestpd⟩ := hlpad hlp
            have hmerge_pad : merge_node R l r = ZerofierTree.padding := by
              rw [merge_node, if_pos hlp]
            have hlev_pad : ∀ t ∈ level_merge R rest, t = ZerofierTree.padding :=
              level_merge_all_padding R rest hrestpd
            have hall_pad : ∀ t ∈ level_merge R (l :: r :: rest),
                t = ZerofierTree.padding := by
              intro t ht
              rw [hlevel] at ht
              rcases List.mem_cons.1 ht with ht | ht
              · rw [ht, hmerge_pad]
              · exact hlev_pad t ht
            have hzf_pad : ∀ t ∈ level_merge R (l :: r :: rest),
                toPoly (ZerofierTree.zerofier t) = 1 := by
              intro t ht
              rw [hall_pad t ht]
              exact toPoly_one
            refine ⟨⟨[], level_merge R (l :: r :: rest), by simp, by simp, hall_pad⟩,
              ?_, ?_, ?_, ?_⟩
            · intro t ht
              rw [hzf_pad t ht]
              exact Polynomial.monic_one
            · have : ∀ t ∈ level_merge R (l :: r :: rest),
                  (toPoly (ZerofierTree.zerofier t)).natDegree = 0 := by
                intro t ht
                rw [hzf_pad t ht]
                simp
              calc ((level_merge R (l :: r :: rest)).map
                  (fun t => (toPoly (ZerofierTree.zerofier t)).natDegree)).sum
                  = ((level_merge R (l :: r :: rest)).map (fun _ => 0)).sum := by
                    congr 1
                    exact List.map_congr_left this
                _ = 0 := by simp
                _ ≤ ((l :: r :: rest).map
                    (fun t => (toPoly (ZerofierTree.zerofier t)).natDegree)).sum :=
                  Nat.zero_le _
            · have hone : ∀ (ts : List (ZerofierTree F)),
                  (∀ t ∈ ts, t = ZerofierTree.padding) →
                  (ts.map (fun t => toPoly (ZerofierTree.zerofier t))).prod = 1 := by
                intro ts hts
                induction ts with
                | nil => simp
                | cons t ts2 ihts =>
                    rw [List.map_cons, List.prod_cons, hts t (by simp)]
                    rw [ihts (fun s hs => hts s (by simp [hs]))]
                    have : ZerofierTree.zerofier (ZerofierTree.padding : ZerofierTree F) =
                        [1] := rfl
                    rw [this, toPoly_one, one_mul]
              rw [hone _ hall_pad, hone _ (by
                intro t ht
                rcases List.mem_cons.1 ht with ht | ht
                · rw [ht, hlpd]
                rcases List.mem_cons.1 ht with ht | ht
                · rw [ht, hrpd]
                · exact hrestpd t ht)]
            · rw [hlevel]
              simp only [List.length_cons]
              omega
          · have hlp' : l.isPadding = false := by
              cases hb : l.isPadding
              · rfl
              · exact absurd hb hlp
            have hmerge_branch : merge_node R l r = ZerofierTree.branch
                (multiply R (ZerofierTree.zerofier l) (ZerofierTree.zerofier r)) l r := by
              rw [merge_node, if_neg (by rw [hlp']; simp)]
            have hlne : toPoly (ZerofierTree.zerofier l) ≠ 0 := hdl.ne_zero
            have hrne : toPoly (ZerofierTree.zerofier r) ≠ 0 := hdr.ne_zero
            have htl := trim_length_eq_natDegree _ hlne
            have htr := trim_length_eq_natDegree _ hrne
            have hdegsum : (toPoly (ZerofierTree.zerofier l)).natDegree +
                (toPoly (ZerofierTree.zerofier r)).natDegree ≤ D := by
              rw [hsum_cons] at hdeg
              omega
            have horder : mul_order (ZerofierTree.zerofier l) (ZerofierTree.zerofier r) ≤ B := by
              apply le_trans _ hB
              rw [mul_order]
              apply next_power_of_two_mono
              have e1 : degree (ZerofierTree.zerofier l) =
                  ((toPoly (ZerofierTree.zerofier l)).natDegree : ℤ) := by
                rw [degree_def, htl]
                push_cast
                ring
              have e2 : degree (ZerofierTree.zerofier r) =
                  ((toPoly (ZerofierTree.zerofier r)).natDegree : ℤ) := by
                rw [degree_def, htr]
                push_cast
                ring
              rw [e1, e2]
              omega
            have hmul : toPoly (ZerofierTree.zerofier (merge_node R l r)) =
                toPoly (ZerofierTree.zerofier l) * toPoly (ZerofierTree.zerofier r) := by
              rw [hmerge_branch]
              exact toPoly_multiply R B hgood _ _ horder
            refine ⟨?_, ?_, ?_, ?_, ?_⟩
            · obtain ⟨ns', ps', hsplit', hns', hps'⟩ := ihPS
              refine ⟨merge_node R l r :: ns', ps', by rw [hlevel, hsplit']; rfl, ?_, hps'⟩
              intro t ht
              rcases List.mem_cons.1 ht with ht | ht
              · rw [ht, hmerge_branch]
                rfl
              · exact hns' t ht
            · intro t ht
              rw [hlevel] at ht
              rcases List.mem_cons.1 ht with ht | ht
              · rw [ht, hmul]
                exact hdl.mul hdr
              · exact ihMonic t ht
            · rw [hlevel]
              simp only [List.map_cons, List.sum_cons]
              rw [hmul, hdl.natDegree_mul hdr]
              omega
            · rw [hlevel]
              simp only [List.map_cons, List.prod_cons]
              rw [hmul, ihProd]
              ring
            · rw [hlevel]
              simp only [List.length_cons]
              omega

theorem merge_loop_ok (R : ℕ → F) (B : ℕ) (hgood : GoodRoots R B) (D : ℕ)
    (hB : next_power_of_two (D + 1) ≤ B) :
    ∀ (k : ℕ) (nodes : List (ZerofierTree F)), nodes.length = 2 ^ k →
      PadSuffix nodes →
      (∀ t ∈ nodes, (toPoly (ZerofierTree.zerofier t)).Monic) →
      ((nodes.map (fun t => (toPoly (ZerofierTree.zerofier t)).natDegree)).sum ≤ D) →
      toPoly (ZerofierTree.zerofier (merge_loop R nodes)) =
        (nodes.map (fun t => toPoly (ZerofierTree.zerofier t))).prod := by
  intro k
  induction k with
  | zero =>
      intro nodes hlen _ _ _
      match nodes with
      | [] => simp at hlen
      | [t] =>
          rw [merge_loop, dif_pos (by simp)]
          simp
      | a :: b :: rest =>
          simp only [List.length_cons] at hlen
          omega
  | succ k ihk =>
      intro nodes hlen hps hm hd
      have heven : nodes.length % 2 = 0 := by
        rw [hlen, pow_succ]
        omega
      have h1 : merge_loop R nodes = merge_loop R (level_merge R nodes) := by
        have h2 := merge_loop_append R nodes.length nodes [] rfl heven
        simpa using h2
      obtain ⟨lPS, lM, lD, lProd, lLen⟩ :=
        level_merge_spec R B hgood D hB nodes.length nodes rfl heven hps hm hd
      rw [h1]
      rw [ihk (level_merge R nodes) (by rw [hlen, pow_succ] at lLen; omega) lPS lM
        (le_trans lD hd)]
      exact lProd

theorem chunks16_length_le {α : Type} :
    ∀ (l : List α) (c : List α), c ∈ chunks16 l → c.length ≤ l.length := by
  have main : ∀ (n : ℕ) (l : List α), l.length = n →
      ∀ c ∈ chunks16 l, c.length ≤ l.length := by
    intro n
    induction n using Nat.strong_induction_on with
    | _ n ih =>
        intro l hn c hc
        rw [chunks16] at hc
        by_cases h : l.length = 0
        · rw [dif_pos h] at hc
          cases hc
        · rw [dif_neg h] at hc
          rcases List.mem_cons.1 hc with hc | hc
          · rw [hc]
            simp
          · have := ih (l.drop 16).length (by simp; omega) (l.drop 16) rfl c hc
            simp only [List.length_drop] at this
            omega
  intro l c hc
  exact main l.length l rfl c hc

theorem prod_linear_flatten (cs : List (List F)) :
    (cs.map (fun c => (c.map (fun r => Polynomial.X - Polynomial.C r)).prod)).prod =
      ((cs.flatten.map (fun r => Polynomial.X - Polynomial.C r))).prod := by
  induction cs with
  | nil => simp
  | cons c cs ih =>
      rw [List.map_cons, List.prod_cons, ih, List.flatten_cons, List.map_append,
        List.prod_append]

theorem toPoly_new_from_domain (R : ℕ → F) (B : ℕ) (hgood : GoodRoots R B)
    (domain : List F) (hbound : next_power_of_two (domain.length + 1) ≤ B) :
    toPoly (ZerofierTree.zerofier (new_from_domain R domain)) =
      (domain.map (fun r => Polynomial.X - Polynomial.C r)).prod := by
  rw [new_from_domain]
  set leaves := (chunks16 domain).map (fun chunk =>
    ZerofierTree.leaf chunk (zerofier R chunk)) with hleaves
  set pads := List.replicate (next_power_of_two leaves.length - leaves.length)
    (ZerofierTree.padding : ZerofierTree F) with hpads
  have hleaf_zf : ∀ t ∈ leaves, ∃ c ∈ chunks16 domain,
      ZerofierTree.zerofier t = zerofier R c := by
    intro t ht
    rw [hleaves, List.mem_map] at ht
    obtain ⟨c, hc, hct⟩ := ht
    exact ⟨c, hc, by rw [← hct]; rfl⟩
  have hchunk_poly : ∀ c ∈ chunks16 domain, toPoly (zerofier R c) =
      (c.map (fun r => Polynomial.X - Polynomial.C r)).prod := by
    intro c hc
    apply toPoly_zerofier R B hgood c.length c rfl
    exact le_trans (next_power_of_two_mono (by
      have := chunks16_length_le domain c hc
      omega)) hbound
  have hmonic : ∀ t ∈ leaves ++ pads, (toPoly (ZerofierTree.zerofier t)).Monic := by
    intro t ht
    rcases List.mem_append.1 ht with ht | ht
    · obtain ⟨c, hc, hzf⟩ := hleaf_zf t ht
      rw [hzf, hchunk_poly c hc]
      exact monic_linear_prod c
    · rw [List.eq_of_mem_replicate ht]
      have : ZerofierTree.zerofier (ZerofierTree.padding : ZerofierTree F) = [1] := rfl
      rw [this, toPoly_one]
      exact Polynomial.monic_one
  have hPS : PadSuffix (leaves ++ pads) := by
    refine ⟨leaves, pads, rfl, ?_, ?_⟩
    · intro t ht
      rw [hleaves, List.mem_map] at ht
      obtain ⟨c, _, hct⟩ := ht
      rw [← hct]
      rfl
    · intro t ht
      exact List.eq_of_mem_replicate ht
  have hdegsum : (((leaves ++ pads).map
      (fun t => (toPoly (ZerofierTree.zerofier t)).natDegree)).sum) ≤ domain.length := by
    rw [List.map_append, List.sum_append]
    have hpadsum : ((pads.map
        (fun t => (toPoly (ZerofierTree.zerofier t)).natDegree)).sum) = 0 := by
      apply List.sum_eq_zero
      intro x hx
      rw [List.mem_map] at hx
      obtain ⟨t, ht, hxt⟩ := hx
      rw [← hxt, List.eq_of_mem_replicate ht]
      have : ZerofierTree.zerofier (ZerofierTree.padding : ZerofierTree F) = [1] := rfl
      rw [this, toPoly_one]
      simp
    rw [hpadsum, Nat.add_zero]
    have hleafmap : leaves.map (fun t => (toPoly (ZerofierTree.zerofier t)).natDegree) =
        (chunks16 domain).map (fun c => c.length) := by
      rw [hleaves, List.map_map]
      apply List.map_congr_left
      intro c hc
      have : (ZerofierTree.zerofier (ZerofierTree.leaf c (zerofier R c))) =
          zerofier R c := rfl
      simp only [Function.comp_apply]
      rw [this, hchunk_poly c hc, natDegree_linear_prod]
    rw [hleafmap]
    have : ((chunks16 domain).map (fun c => c.length)).sum =
        (chunks16 domain).flatten.length := by
      rw [List.length_flatten]
    rw [this, chunks16_flatten]
  have hlen2 : (leaves ++ pads).length = 2 ^ log_2_ceil leaves.length := by
    rw [List.length_append, hpads, List.length_replicate]
    have h1 : leaves.length ≤ next_power_of_two leaves.length :=
      le_next_power_of_two _
    rw [next_power_of_two] at h1 ⊢
    omega
  have hprod : ((leaves ++ pads).map (fun t => toPoly (ZerofierTree.zerofier t))).prod =
      (domain.map (fun r => Polynomial.X - Polynomial.C r)).prod := by
    rw [List.map_append, List.prod_append]
    have hpadprod : ((pads.map (fun t => toPoly (ZerofierTree.zerofier t))).prod) = 1 := by
      apply List.prod_eq_one
      intro x hx
      rw [List.mem_map] at hx
      obtain ⟨t, ht, hxt⟩ := hx
      rw [← hxt, List.eq_of_mem_replicate ht]
      have : ZerofierTree.zerofier (ZerofierTree.padding : ZerofierTree F) = [1] := rfl
      rw [this, toPoly_one]
    rw [hpadprod, mul_one]
    have hleafmap : leaves.map (fun t => toPoly (ZerofierTree.zerofier t)) =
        (chunks16 domain).map (fun c =>
          (c.map (fun r => Polynomial.X - Polynomial.C r)).prod) := by
      rw [hleaves, List.map_map]
      apply List.map_congr_left
      intro c hc
      have : (ZerofierTree.zerofier (ZerofierTree.leaf c (zerofier R c))) =
          zerofier R c := rfl
      simp only [Function.comp_apply]
      rw [this, hchunk_poly c hc]
    rw [hleafmap, prod_linear_flatten, chunks16_flatten]
  rw [merge_loop_ok R B hgood domain.length hbound (log_2_ceil leaves.length)
    (leaves ++ pads) hlen2 hPS hmonic hdegsum]
  exact hprod

/-- C9: the vanishing polynomial at the root of `ZerofierTree::new_from_domain`
equals `Polynomial::zerofier` of the whole point set, and a merge with a
`Padding` child contributes the non-padding child's zerofier unchanged, since
`Padding`'s vanishing polynomial is the constant one. -/
theorem C9_zerofier_tree_root (R : ℕ → F) (B : ℕ) (hgood : GoodRoots R B)
    (points : List F) (hne : points ≠ [])
    (hbound : next_power_of_two (points.length + 1) ≤ B) :
    polyEq (ZerofierTree.zerofier (new_from_domain R points)) (zerofier R points) = true ∧
    ZerofierTree.zerofier (ZerofierTree.padding : ZerofierTree F) = [1] ∧
    (∀ t : ZerofierTree F, t.isPadding = false →
      mul_order (ZerofierTree.zerofier t)
        (ZerofierTree.zerofier (ZerofierTree.padding : ZerofierTree F)) ≤ B →
      polyEq (ZerofierTree.zerofier (merge_node R t ZerofierTree.padding))
        (ZerofierTree.zerofier t) = true) := by
  refine ⟨?_, rfl, ?_⟩
  · apply polyEq_of_toPoly_eq
    rw [toPoly_new_from_domain R B hgood points hbound,
      toPoly_zerofier R B hgood points.length points rfl hbound]
  · intro t htp hmo
    apply polyEq_of_toPoly_eq
    have hmerge : merge_node R t ZerofierTree.padding = ZerofierTree.branch
        (multiply R (ZerofierTree.zerofier t)
          (ZerofierTree.zerofier (ZerofierTree.padding : ZerofierTree F)))
        t ZerofierTree.padding := by
      rw [merge_node, if_neg (by rw [htp]; simp)]
    rw [hmerge]
    have hz : toPoly (ZerofierTree.zerofier (ZerofierTree.branch
        (multiply R (ZerofierTree.zerofier t)
          (ZerofierTree.zerofier (ZerofierTree.padding : ZerofierTree F)))
        t ZerofierTree.padding)) =
        toPoly (multiply R (ZerofierTree.zerofier t) [1]) := rfl
    have hp1 : ZerofierTree.zerofier (ZerofierTree.padding : ZerofierTree F) = [1] := rfl
    rw [hp1] at hmo
    rw [hz, toPoly_multiply R B hgood _ _ hmo, toPoly_one, mul_one]

/-- Witness for C9 at the concrete point set `{1, 2}` over `ZMod 17`. -/
theorem C9_witness :
    (GoodRoots R17 16 ∧ ([1, 2] : List (ZMod 17)) ≠ [] ∧
      next_power_of_two (([1, 2] : List (ZMod 17)).length + 1) ≤ 16) ∧
    (polyEq (ZerofierTree.zerofier (new_from_domain R17 ([1, 2] : List (ZMod 17))))
        (zerofier R17 [1, 2]) = true ∧
     ZerofierTree.zerofier (ZerofierTree.padding : ZerofierTree (ZMod 17)) = [1] ∧
     (∀ t : ZerofierTree (ZMod 17), t.isPadding = false →
       mul_order (ZerofierTree.zerofier t)
         (ZerofierTree.zerofier (ZerofierTree.padding : ZerofierTree (ZMod 17))) ≤ 16 →
       polyEq (ZerofierTree.zerofier (merge_node R17 t ZerofierTree.padding))
         (ZerofierTree.zerofier t) = true)) :=
  ⟨⟨R17_good, by decide, by decide⟩,
    C9_zerofier_tree_root R17 16 R17_good [1, 2] (by decide) (by decide)⟩

/-! Division with remainder, from `math/polynomial.rs`. -/

/-- Source `impl Sub for Polynomial`: coefficient-wise difference, zip-longest
style (a `Right(r)` leg becomes `0 - r`). -/
def poly_sub : List F → List F → List F
  | [], ys => ys.map (fun r => 0 - r)
  | xs, [] => xs
  | x :: xs, y :: ys => (x - y) :: poly_sub xs ys

/-- Rust `usize::ilog2` (floor base-2 logarithm), fuel-based so that it
kernel-reduces; `ilog2 0 = 0` stands in for the source's panic on zero, which
no analysed call path reaches. -/
def ilog2_rec : ℕ → ℕ → ℕ
  | 0, _ => 0
  | fuel+1, n => if n ≤ 1 then 0 else 1 + ilog2_rec fuel (n / 2)

/-- Rust `usize::ilog2`. -/
def ilog2 (n : ℕ) : ℕ :=
  ilog2_rec n n

/-- Source `Polynomial::reverse`: truncate to the canonical degree, then
reverse the coefficient vector. -/
def reverse_canonical (p : List F) : List F :=
  (p.take (degree p + 1).toNat).reverse

/-- Source `Polynomial::truncate`: keep the `k + 1` trailing (raw)
coefficients. -/
def truncate (p : List F) (k : ℕ) : List F :=
  (p.reverse.take (k + 1)).reverse

/-- One pass of `naive_divide`'s main loop: pop the remainder's top
coefficient, emit the quotient coefficient `lc · b_lc⁻¹`, and (when that
coefficient is non-zero) subtract the top-aligned copy of the normalized
divisor minus its leading term.  On every state the source reaches, the
remainder is at least as long as the trimmed divisor, so the `Nat`
subtractions below never clamp. -/
def divStep (blcinv : F) (btrim : List F) (st : List F × List F) : List F × List F :=
  let lc := st.2.getLastD 0
  let rem1 := st.2.dropLast
  let qc := lc * blcinv
  if qc = 0 then (st.1 ++ [qc], rem1) else
    let db := btrim.length - 1
    (st.1 ++ [qc],
      (List.range rem1.length).map (fun p =>
        if rem1.length - db ≤ p then
          rem1.getD p 0 - qc * btrim.getD (db - 1 - (rem1.length - 1 - p)) 0
        else rem1.getD p 0))

/-- `naive_divide`'s loop, one `divStep` per quotient coefficient. -/
def divLoop (blcinv : F) (btrim : List F) : ℕ → List F × List F → List F × List F
  | 0, st => st
  | t+1, st => divLoop blcinv btrim t (divStep blcinv btrim st)

/-- Source `Polynomial::naive_divide` (schoolbook long division); `none`
models the `expect` panic on a zero divisor.  The quotient is built
back-to-front and reversed at the end; the remainder starts as the normalized
dividend and loses its top coefficient once per iteration. -/
def naive_divide (a b : List F) : Option (List F × List F) :=
  if degree b < 0 then none
  else if degree a - degree b < 0 then some ([], a)
  else
    let blcinv := (b.getD (degree b).toNat 0)⁻¹
    let fin := divLoop blcinv (trim b) ((degree a - degree b).toNat + 1) ([], trim a)
    some (fin.1.reverse, fin.2)

/-- The standard (coefficient-domain) phase of
`formal_power_series_inverse_newton`: `f ← 2·f − f·f·self`, with the
dispatching `multiply` and no truncation. -/
def newton_std_loop (R : ℕ → F) (c : List F) : ℕ → List F → List F
  | 0, f => f
  | k+1, f =>
      newton_std_loop R c k
        (poly_sub (f.map (fun v => v * 2)) (multiply R (multiply R f f) c))

/-- One round of the NTT-domain phase of
`formal_power_series_inverse_newton`: update the tracked degree, migrate the
value table to a larger power-of-two domain when needed (inverse transform of
the old prefix, forward transform of the new prefix), then apply the
pointwise Newton step against the subsampled transform of `self`. -/
def newton_ntt_step (R : ℕ → F) (self_ntt : List F) (full : ℕ) (sd : ℤ)
    (st : List F × ℕ × ℤ) : List F × ℕ × ℤ :=
  let fd1 := 2 * st.2.2 + sd
  let migrated :=
    if (st.2.1 : ℤ) ≤ fd1 then
      let nxt := next_power_of_two (1 + fd1.toNat)
      let w := intt (st.1.take st.2.1) (R st.2.1) ++ st.1.drop st.2.1
      (ntt (w.take nxt) (R nxt) ++ w.drop nxt, nxt)
    else (st.1, st.2.1)
  let updated := (List.range migrated.1.length).map (fun i =>
    if i < migrated.2 then
      2 * migrated.1.getD i 0 -
        migrated.1.getD i 0 * migrated.1.getD i 0 *
          self_ntt.getD (i * (full / migrated.2)) 0
    else migrated.1.getD i 0)
  (updated, migrated.2, fd1)

/-- The NTT-domain phase of `formal_power_series_inverse_newton`. -/
def newton_ntt_loop (R : ℕ → F) (self_ntt : List F) (full : ℕ) (sd : ℤ) :
    ℕ → List F × ℕ × ℤ → List F × ℕ × ℤ
  | 0, st => st
  | k+1, st => newton_ntt_loop R self_ntt full sd k (newton_ntt_step R self_ntt full sd st)

/-- Source `Polynomial::formal_power_series_inverse_newton`; `none` models the
documented panic when the constant coefficient is zero (`inverse()` of zero),
merged with the index panic on an empty coefficient vector. -/
def formal_power_series_inverse_newton (R : ℕ → F) (c : List F) (precision : ℕ) :
    Option (List F) :=
  if degree c = 0 then some [(c.getD 0 0)⁻¹]
  else
    let nr := ilog2 (next_power_of_two precision)
    let sp := if 256 < (degree c).toNat then 0 else ilog2 (256 / (degree c).toNat)
    if c.getD 0 0 = 0 then none
    else
      let f1 := newton_std_loop R c (min nr sp) [(c.getD 0 0)⁻¹]
      if nr ≤ sp then some f1
      else
        let full := next_power_of_two (2 ^ (nr + 1) * (degree c).toNat)
        let self_ntt := ntt (resize c full) (R full)
        let current0 := next_power_of_two f1.length
        let f_ntt0 := resize f1 full
        let f_ntt1 := ntt (f_ntt0.take current0) (R current0) ++ f_ntt0.drop current0
        let fin := newton_ntt_loop R self_ntt full (degree c) (nr - sp)
          (f_ntt1, current0, degree f1)
        some (intt (fin.1.take fin.2.1) (R fin.2.1) ++ fin.1.drop fin.2.1)

/-- Source `Polynomial::fast_divide` (reversal and power-series inverse); the
local `reverse` closure reverses the raw coefficient vector, unlike the
`reverse` method. -/
def fast_divide (R : ℕ → F) (a b : List F) : Option (List F × List F) :=
  if degree a - degree b < 0 then some ([], a)
  else if degree b = 0 then
    some (a.map (fun v => v * (b.getD (degree b).toNat 0)⁻¹), [])
  else
    let qd := (degree a - degree b).toNat
    match formal_power_series_inverse_newton R b.reverse (next_power_of_two (qd + 1)) with
    | none => none
    | some g =>
        let q := truncate (multiply R a.reverse g).reverse qd
        some (q, poly_sub a (multiply R q b))

/-- Source `Polynomial::divide`: dispatch on the dividend's degree against
`FAST_DIVIDE_THRESHOLD = 1000`. -/
def divide (R : ℕ → F) (a b : List F) : Option (List F × List F) :=
  if 1000 < degree a then fast_divide R a b else naive_divide a b

/-- Source `Polynomial::reduce`: divide and keep only the remainder. -/
def reduce (R : ℕ → F) (a m : List F) : Option (List F) :=
  (divide R a m).map (fun qr => qr.2)

/-! The structured-multiple reduction pipeline, from `math/polynomial.rs`. -/

/-- One step of `formal_power_series_inverse_minimal`'s recurrence.  The
source pushes the new coefficient at the back and forms the inner product of
the shifted divisor coefficients against `g.iter().rev()`; the accumulator is
therefore kept in reversed order here — prepending is the same push, and the
zip runs against the accumulator directly. -/
def fps_minimal_step (c : List F) (lcInv : F) (grev : List F) : List F :=
  -((((c.drop 1).take grev.length).zip grev).foldl
    (fun acc lr => acc + lr.1 * lr.2) 0) * lcInv :: grev

/-- Source `Polynomial::formal_power_series_inverse_minimal` (the reversed
accumulator is flipped back at the end); `none` models the panic when the
constant coefficient is zero or the vector empty. -/
def formal_power_series_inverse_minimal (c : List F) (precision : ℕ) :
    Option (List F) :=
  if c.getD 0 0 = 0 then none
  else some (((List.range precision).foldl
    (fun grev _ => fps_minimal_step c (c.getD 0 0)⁻¹ grev) [(c.getD 0 0)⁻¹]).reverse)

/-- Source `Polynomial::structured_multiple`: a multiple of shape
`X^(3n+1) + (low part)`, via the reversal trick. -/
def structured_multiple (R : ℕ → F) (c : List F) : Option (List F) :=
  match formal_power_series_inverse_minimal (reverse_canonical c) (degree c).toNat with
  | none => none
  | some g => some (reverse_canonical (multiply R (reverse_canonical c) g))

/-- Source `Polynomial::structured_multiple_of_degree`: a multiple of shape
`X^n + (low part)`; `none` models the panics on a zero polynomial or a target
degree below the polynomial's. -/
def structured_multiple_of_degree (R : ℕ → F) (c : List F) (n : ℕ) :
    Option (List F) :=
  if degree c < 0 then none
  else if n < (degree c).toNat then none
  else if degree c = 0 then some (List.replicate n 0 ++ [(c.getD 0 0)⁻¹])
  else
    match formal_power_series_inverse_minimal (reverse_canonical c)
        (n - (degree c).toNat) with
    | none => none
    | some g => some (reverse_canonical (multiply R (reverse_canonical c) g))

/-- The chunk loop of `reduce_by_structured_modulus`, counting the chunk index
down: multiply the window's overflow by the shift, slide the window one chunk
down over the input, subtract the product. -/
def rbsm_loop (R : ℕ → F) (c shift : List F) (nn m : ℕ) : ℕ → List F → List F
  | 0, ww => ww
  | ci+1, ww =>
      let product := multiply R (ww.drop m) shift
      let ww1 := (List.range nn).map (fun i => c.getD (ci * nn + i) 0) ++ ww.take m
      rbsm_loop R c shift nn m ci
        ((List.range (nn + m)).map (fun i => ww1.getD i 0 - product.getD i 0))

/-- Source `Polynomial::reduce_by_structured_modulus`: chunk-wise reduction by
a multiple of shape `X^(m+n) + shift`, schoolbook products inside.  `m` is
computed through `isize`, so a zero shift yields `m = 0` as in a release
build. -/
def reduce_by_structured_modulus (R : ℕ → F) (c multiple : List F) : List F :=
  let shift := poly_sub multiple (List.replicate (degree multiple).toNat 0 ++ [1])
  let m := (degree shift + 1).toNat
  let nn := (degree multiple).toNat - m
  if c.length < nn + m then c
  else
    let num := (c.length - (m + nn) + nn - 1) / nn
    rbsm_loop R c shift nn m num (resize (c.drop (num * nn)) (nn + m))

/-- The chunk loop of `reduce_by_ntt_friendly_modulus`: the same sliding
window, with the product taken pointwise in the transform domain against the
pre-transformed shift. -/
def rbnfm_loop (R : ℕ → F) (c shift_ntt : List F) (nn m dl : ℕ) :
    ℕ → List F → List F
  | 0, ww => ww
  | ci+1, ww =>
      let product := intt (((ntt (ww.drop m ++ List.replicate m 0) (R dl)).zip
        shift_ntt).map (fun lr => lr.1 * lr.2)) (R dl)
      let ww1 := (List.range nn).map (fun i => c.getD (ci * nn + i) 0) ++ ww.take m
      rbnfm_loop R c shift_ntt nn m dl ci
        ((List.range (nn + m)).map (fun i => ww1.getD i 0 - product.getD i 0))

/-- Source `Polynomial::reduce_by_ntt_friendly_modulus`. -/
def reduce_by_ntt_friendly_modulus (R : ℕ → F) (c shift_ntt : List F) (m : ℕ) :
    List F :=
  let nn := shift_ntt.length - m
  if c.length < nn + m then c
  else
    let num := (c.length - (m + nn) + nn - 1) / nn
    rbnfm_loop R c shift_ntt nn m shift_ntt.length num
      (resize (c.drop (num * nn)) (nn + m))

/-- The index `fast_reduce` scans for: the position of the second-highest
non-zero coefficient (`0` when there is none). -/
def second_highest_nonzero_index (l : List F) : ℕ :=
  match (l.take (l.length - 1)).reverse.findIdx? (fun v => decide (v ≠ 0)) with
  | none => 0
  | some j => l.length - 2 - j

/-- Source `Polynomial::fast_reduce`: the three-stage reduction pipeline;
`none` propagates the panics of the structured-multiple constructions, of the
slice `coefficients[..n]` when the multiple is shorter than `n`, and of the
final division dispatch. -/
def fast_reduce (R : ℕ → F) (c modulus : List F) : Option (List F) :=
  if degree modulus = 0 then some []
  else if degree c < degree modulus then some c
  else
    let n := next_power_of_two (max 256 ((degree modulus).toNat * 2))
    match structured_multiple_of_degree R modulus n with
    | none => none
    | some nfm =>
        if nfm.length < n then none
        else
          let m := 1 + second_highest_nonzero_index nfm
          let inter1 := reduce_by_ntt_friendly_modulus R c (ntt (nfm.take n) (R n)) m
          let step2 : Option (List F) :=
            if 4 * degree modulus < degree inter1 then
              match structured_multiple R modulus with
              | none => none
              | some sm => some (reduce_by_structured_modulus R inter1 sm)
            else some inter1
          match step2 with
          | none => none
          | some inter2 => reduce R inter2 modulus

/-! Interpolation and batch evaluation, from `math/polynomial.rs`. -/

/-- The inner synthetic-division loop of `lagrange_interpolate`, running the
index down: it produces the summand coefficients (index 0 settled last) and
the Horner evaluation of the summand at the sample point. -/
def lagrange_rec (z : List F) (x : F) : ℕ → F → F → F → List F × F
  | 0, lc, _, ev => ([lc], ev * x + lc)
  | j+1, lc, sc, ev =>
      let res := lagrange_rec z x j (sc + lc * x) (z.getD j 0) (ev * x + lc)
      (res.1 ++ [lc], res.2)

/-- Source `Polynomial::lagrange_interpolate`: one zerofier, then one
synthetic division and one accumulation pass per sample point.  The division
by the summand's evaluation is the field division of the source (which cannot
hit zero on a duplicate-free domain). -/
def lagrange_interpolate (R : ℕ → F) (domain values : List F) : List F :=
  let nlen := domain.length
  let z := zerofier R domain
  (List.range nlen).foldl (fun acc i =>
      let xi := domain.getD i 0
      let sr := lagrange_rec z xi (nlen - 1) (z.getD nlen 0) (z.getD (nlen - 1) 0) 0
      let corrected := values.getD i 0 / sr.2
      List.zipWith (fun av sv => av + corrected * sv) acc sr.1)
    (List.replicate nlen 0)

/-- The recursion of `Polynomial::batch_evaluate`, structural on a fuel
argument so that it kernel-reduces.  Each recursive call strictly lowers
`domain.length + (trim c).length` whenever the reduction pipeline made
progress, so the wrapper's fuel only runs out — answering `none` — where the
source program would recurse forever. -/
def batch_evaluate_rec (R : ℕ → F) : ℕ → List F → List F → Option (List F)
  | 0, _, _ => none
  | fuel+1, c, domain =>
      if 4 * (domain.length : ℤ) ≤ degree c then
        match fast_reduce R c (zerofier R domain) with
        | none => none
        | some r => batch_evaluate_rec R fuel r domain
      else if 32 ≤ domain.length then
        match batch_evaluate_rec R fuel c (domain.take (domain.length / 2)),
          batch_evaluate_rec R fuel c (domain.drop (domain.length / 2)) with
        | some l, some rr => some (l ++ rr)
        | _, _ => none
      else some (domain.map (fun x => evaluate c x))

/-- Source `Polynomial::batch_evaluate`: reduce first when the degree is at
least four times the domain size, split recursively at 32 or more points,
Horner otherwise.  `none` propagates the reduction pipeline's panics. -/
def batch_evaluate (R : ℕ → F) (c domain : List F) : Option (List F) :=
  batch_evaluate_rec R (domain.length + (trim c).length + 1) c domain

/-- Modelled from the spec: `FF::batch_inversion` (in the absent `traits.rs`)
inverts every element and panics when one of them is zero. -/
def batch_inversion (l : List F) : Option (List F) :=
  if l.any (fun v => decide (v = 0)) then none else some (l.map (fun v => v⁻¹))

/-- The recursion of `Polynomial::interpolate`, structural on a fuel argument
so that it kernel-reduces; the halving recursion keeps the fuel ahead of the
domain length, so the fuel-zero arm is unreachable from the wrapper. -/
def interpolate_rec (R : ℕ → F) : ℕ → List F → List F → Option (List F)
  | 0, _, _ => none
  | fuel+1, domain, values =>
      if domain.length = 0 then none
      else if domain.length ≠ values.length then none
      else if domain.length ≤ 256 then some (lagrange_interpolate R domain values)
      else
        let mid := domain.length / 2
        let ld := domain.take mid
        let rd := domain.drop mid
        let lz := zerofier R ld
        let rz := zerofier R rd
        match batch_evaluate R rz ld, batch_evaluate R lz rd with
        | some lo, some ro =>
            (match batch_inversion lo, batch_inversion ro with
             | some loi, some roi =>
                 (match interpolate_rec R fuel ld
                      (List.zipWith (fun n d => n * d) (values.take mid) loi),
                    interpolate_rec R fuel rd
                      (List.zipWith (fun n d => n * d) (values.drop mid) roi) with
                  | some li, some ri =>
                      some (poly_add (multiply R li rz) (multiply R ri lz))
                  | _, _ => none)
             | _, _ => none)
        | _, _ => none

/-- Source `Polynomial::interpolate` with the `fast_interpolate` arm inlined
(that arm recurses through `interpolate` on each half; its private guard for
a one-point domain is unreachable behind the 256-point dispatch).  `none`
models the panics on an empty domain or mismatched lengths and propagates the
inner pipeline's panics. -/
def interpolate (R : ℕ → F) (domain values : List F) : Option (List F) :=
  interpolate_rec R domain.length domain values

/-! The Goldilocks base field.  Every `FF` the analysed code instantiates is
`BFieldElement` — the prime field of order `2^64 - 2^32 + 1` — or its
extension, so concrete executions below run in `ZMod` of that prime.
Primality is established through a Lucas certificate with witness 7. -/

/-- Square-and-multiply exponentiation with explicit fuel, used to evaluate
large powers inside kernel-checked proofs. -/
def fastPow {M : Type} [Monoid M] (x : M) : ℕ → ℕ → M
  | 0, _ => 1
  | fuel+1, e =>
      if e = 0 then 1
      else
        let h := fastPow x fuel (e / 2)
        if e % 2 = 0 then h * h else h * h * x

theorem fastPow_eq {M : Type} [Monoid M] (x : M) :
    ∀ fuel e, e < 2 ^ fuel → x ^ e = fastPow x fuel e := by
  intro fuel
  induction fuel with
  | zero =>
      intro e he
      have h0 : e = 0 := by simpa using he
      subst h0
      rw [pow_zero, fastPow]
  | succ fuel ih =>
      intro e he
      rw [fastPow]
      by_cases h0 : e = 0
      · rw [if_pos h0, h0, pow_zero]
      · rw [if_neg h0]
        have hdiv : e / 2 < 2 ^ fuel := by
          rw [pow_succ] at he
          omega
        have hrec := ih (e / 2) hdiv
        by_cases hm : e % 2 = 0
        · rw [if_pos hm]
          have hsplit : e = e / 2 + e / 2 := by omega
          conv_lhs => rw [hsplit]
          rw [pow_add, hrec]
        · rw [if_neg hm]
          have hsplit : e = (e / 2 + e / 2) + 1 := by omega
          conv_lhs => rw [hsplit]
          rw [pow_succ, pow_add, hrec]

/-- The Goldilocks prime `2^64 - 2^32 + 1`. -/
def goldilocks : ℕ := 18446744069414584321

theorem goldilocks_sub_one :
    goldilocks - 1 = 2 ^ 32 * 3 * 5 * 17 * 257 * 65537 := by
  norm_num [goldilocks]

set_option maxRecDepth 10000 in
theorem goldilocks_prime : Nat.Prime goldilocks := by
  apply lucas_primality goldilocks (7 : ZMod goldilocks)
  · rw [fastPow_eq 7 64 _ (by norm_num [goldilocks])]
    decide
  · intro q hq hdvd
    rw [goldilocks_sub_one] at hdvd
    have hq65537 : Nat.Prime 65537 := by norm_num
    have hq257 : Nat.Prime 257 := by norm_num
    have hq17 : Nat.Prime 17 := by norm_num
    have hcase : q = 2 ∨ q = 3 ∨ q = 5 ∨ q = 17 ∨ q = 257 ∨ q = 65537 := by
      rcases (Nat.Prime.dvd_mul hq).mp hdvd with h | h
      · rcases (Nat.Prime.dvd_mul hq).mp h with h | h
        · rcases (Nat.Prime.dvd_mul hq).mp h with h | h
          · rcases (Nat.Prime.dvd_mul hq).mp h with h | h
            · rcases (Nat.Prime.dvd_mul hq).mp h with h | h
              · have h2 : q ∣ 2 := Nat.Prime.dvd_of_dvd_pow hq h
                exact Or.inl ((Nat.prime_dvd_prime_iff_eq hq Nat.prime_two).mp h2)
              · exact Or.inr (Or.inl
                  ((Nat.prime_dvd_prime_iff_eq hq Nat.prime_three).mp h))
            · exact Or.inr (Or.inr (Or.inl
                ((Nat.prime_dvd_prime_iff_eq hq (by norm_num)).mp h)))
          · exact Or.inr (Or.inr (Or.inr (Or.inl
              ((Nat.prime_dvd_prime_iff_eq hq hq17).mp h))))
        · exact Or.inr (Or.inr (Or.inr (Or.inr (Or.inl
            ((Nat.prime_dvd_prime_iff_eq hq hq257).mp h)))))
      · exact Or.inr (Or.inr (Or.inr (Or.inr (Or.inr
          ((Nat.prime_dvd_prime_iff_eq hq hq65537).mp h)))))
    have hlit : goldilocks - 1 = 18446744069414584320 := by norm_num [goldilocks]
    rcases hcase with rfl | rfl | rfl | rfl | rfl | rfl
    · rw [hlit, show (18446744069414584320 : ℕ) / 2 = 9223372034707292160 from by norm_num,
        fastPow_eq 7 64 _ (by norm_num)]
      decide
    · rw [hlit, show (18446744069414584320 : ℕ) / 3 = 6148914689804861440 from by norm_num,
        fastPow_eq 7 64 _ (by norm_num)]
      decide
    · rw [hlit, show (18446744069414584320 : ℕ) / 5 = 3689348813882916864 from by norm_num,
        fastPow_eq 7 64 _ (by norm_num)]
      decide
    · rw [hlit, show (18446744069414584320 : ℕ) / 17 = 1085102592318504960 from by norm_num,
        fastPow_eq 7 64 _ (by norm_num)]
      decide
    · rw [hlit, show (18446744069414584320 : ℕ) / 257 = 71777214277877760 from by norm_num,
        fastPow_eq 7 64 _ (by norm_num)]
      decide
    · rw [hlit, show (18446744069414584320 : ℕ) / 65537 = 281470681743360 from by norm_num,
        fastPow_eq 7 64 _ (by norm_num)]
      decide

instance : Fact (Nat.Prime goldilocks) := ⟨goldilocks_prime⟩

/-- The Goldilocks base field `BFieldElement`, as `ZMod` of its prime.  The
synonym carries its own `Field` instance whose inverse is the Fermat power
`x^(p-2)` computed by square-and-multiply — equal to the field inverse but
evaluable by the kernel, unlike the extended-gcd inverse of the generic
`ZMod` instance. -/
def BF : Type := ZMod goldilocks

instance : CommRing BF := inferInstanceAs (CommRing (ZMod goldilocks))

instance : DecidableEq BF := inferInstanceAs (DecidableEq (ZMod goldilocks))

/-- Fermat inverse on the Goldilocks field. -/
def BF.inv (x : BF) : BF := fastPow x 64 (goldilocks - 2)

theorem BF.inv_eq_pow (x : BF) : BF.inv x = x ^ (goldilocks - 2) := by
  rw [BF.inv, fastPow_eq x 64 (goldilocks - 2) (by norm_num [goldilocks])]

instance : Field BF where
  __ := inferInstanceAs (CommRing BF)
  inv := BF.inv
  nnqsmul := _
  qsmul := _
  exists_pair_ne := by
    refine ⟨(0 : BF), (1 : BF), ?_⟩
    show (0 : ZMod goldilocks) ≠ 1
    decide
  mul_inv_cancel := by
    intro a ha
    show a * BF.inv a = 1
    rw [BF.inv_eq_pow]
    show (a : ZMod goldilocks) * a ^ (goldilocks - 2) = 1
    have hcard : (a : ZMod goldilocks) ^ (goldilocks - 1) = 1 :=
      ZMod.pow_card_sub_one_eq_one ha
    calc (a : ZMod goldilocks) * a ^ (goldilocks - 2)
        = a ^ (goldilocks - 1) := by
          rw [show goldilocks - 1 = 1 + (goldilocks - 2) from by norm_num [goldilocks],
            pow_add, pow_one]
      _ = 1 := hcard
  inv_zero := by
    show BF.inv 0 = 0
    rw [BF.inv_eq_pow]
    show (0 : ZMod goldilocks) ^ (goldilocks - 2) = 0
    apply zero_pow
    norm_num [goldilocks]

/-- A root provider for the concrete run below.  That run never enters a
transform-based branch (every product stays below the multiply cutoff, every
zerofier below the 200-point dispatch, the interpolation below the 256-point
dispatch, and the chunk loop of stage one of `fast_reduce` is skipped because
the polynomial is shorter than its window), so no root of unity is ever
drawn; any provider gives the run of the source program. -/
def BFRoots : ℕ → BF := fun _ => 1

/-- The 70-point evaluation domain exhibiting the `batch_evaluate` defect:
positions 0–16 are `0, 2, 3, …, 17` (the chunk containing zero), positions
17–34 are `18, …, 35`, positions 35–51 are the seventeen 17th roots of unity
of the Goldilocks field (so that chunk's zerofier is `X^17 - 1`), and
positions 52–69 are `36, …, 53`.  All seventy points are pairwise distinct. -/
def C5_domain : List BF :=
  [0, 2, 3, 4, 5, 6, 7, 8, 9, 10, 11, 12, 13, 14, 15, 16, 17,
   18, 19, 20, 21, 22, 23, 24, 25, 26, 27, 28, 29, 30, 31, 32, 33, 34, 35,
   1, 210193924735702749, 216497995855431502, 543800461775962813,
   1075484462650463240, 1277092636785675749, 2287659996902525609,
   7226731810340081554, 8954381287844053589, 9038190865685531147,
   10312117284174635830, 10826161505497691794, 11184983107225049225,
   14837556610344522776, 16301593560560007290, 16514026533473305076,
   18320736442051450303,
   36, 37, 38, 39, 40, 41, 42, 43, 44, 45, 46, 47, 48, 49, 50, 51, 52, 53]

/-- Value 1 at the domain point 0, value 0 everywhere else. -/
def C5_values : List BF :=
  1 :: List.replicate 69 0

/-- What the program actually returns on `(C5_domain, C5_values)`: the value
reported at the domain point 0 is `1540917744726903360` instead of 1. -/
def C5_wrong : List BF :=
  1540917744726903360 :: List.replicate 69 0

/-- The zerofier of `C5_domain`, as a literal; its constant coefficient is
zero because the domain contains the point 0, which is what stage two of
`fast_reduce` later mishandles. -/
def C5_z : List BF :=
  [0, 11111540170204915555, 7712684668430380862, 10868991122901920747, 
   12147301567392362758, 17793287781880723061, 17619113734839369165, 
   9609500100127502433, 5862497488184412170, 1961660519059883665, 
   5894514937613777347, 4993271050244335801, 7499121439033673843, 
   14446896565991713469, 6653069467258413625, 3964790612970304335, 
   12614391225848849675, 1349641391083615786, 10111835257530828521, 
   4897490474501037942, 12988318737537424509, 7378640196436870271, 
   3336829741153457140, 2359063654851098160, 7992513895686264671, 
   11404253908306362956, 14268949357802563141, 2351129222122129916, 
   11157919043111124740, 4620015584330875688, 12454539080780370019, 
   6513457420396582097, 11803470692987439501, 9768857787246226298, 
   17144827011060110736, 8460667698702313578, 12153868782525485030, 
   9902461996094956250, 6917048114893380498, 10939030407546886941, 
   5116642899638391596, 10561508554742248330, 2815935434596245442, 
   12636558580191844973, 3385809684850349268, 16007743054106232837, 
   7729395079014453890, 9984005008574720464, 5280255691109767899, 
   2678482614034941495, 14510239126185650919, 18399019736684445189, 
   7209445012391112418, 12129444213372264807, 3133716282294867136, 
   10450498260106555115, 4824340208248101500, 11798667849500309721, 
   8729965588273153208, 16810801307742148074, 8026319681774876863, 
   6815290224828327790, 4734554991367475264, 17044956036450165221, 
   8047483482364690, 18446705560064405021, 149421898990, 
   18446744068963026071, 996931, 18446744069414582891, 1]

set_option maxRecDepth 400000 in
set_option maxHeartbeats 4000000 in
theorem C5_z_eq : zerofier BFRoots C5_domain = C5_z := by
  decide

/-- `lagrange_interpolate` unfolded to its accumulation `foldl`, with the
zerofier abstracted so that concrete runs can plug in a precomputed value. -/
theorem lagrange_interpolate_unfold (R : ℕ → F) (domain values z : List F)
    (hz : zerofier R domain = z) :
    lagrange_interpolate R domain values =
      (List.range domain.length).foldl (fun acc i =>
        let xi := domain.getD i 0
        let sr := lagrange_rec z xi (domain.length - 1)
          (z.getD domain.length 0) (z.getD (domain.length - 1) 0) 0
        let corrected := values.getD i 0 / sr.2
        List.zipWith (fun av sv => av + corrected * sv) acc sr.1)
      (List.replicate domain.length 0) := by
  subst hz
  rfl

/-- One summand-accumulation step of `lagrange_interpolate` on the concrete
seventy-point data, with the zerofier inlined as the literal `C5_z`. -/
def C5_step (acc : List BF) (i : ℕ) : List BF :=
  let xi := C5_domain.getD i 0
  let sr := lagrange_rec C5_z xi 69 (C5_z.getD 70 0) (C5_z.getD 69 0) 0
  let corrected := C5_values.getD i 0 / sr.2
  List.zipWith (fun av sv => av + corrected * sv) acc sr.1

/-- The Lagrange accumulator after the first thirty-five domain points. -/
def C5_mid : List BF :=
  [1, 2378164042796763771, 2286357666592899431, 3368547582642064257, 
   5697762063046951012, 11725271562351026930, 14919878804370436428, 
   9585884958687688150, 15698718971069008506, 11710865162489493157, 
   6220725637352104835, 11762232622714188007, 11255517694042414124, 
   5576548508976614048, 3688767637844754241, 16560834072140356530, 
   11274575720470061157, 10224453718605393187, 979803021313524388, 
   18296899455836875004, 10086935957511347654, 15572888689759838077, 
   8081820796798538618, 10912522421549684420, 6843119830661792558, 
   16191647238459629659, 2960182573799624333, 12124539200459071291, 
   1547089357995171008, 6484664654058566425, 8377198881822354642, 
   11612868624496479156, 2231184722771206950, 11984580244525563442, 
   5914426041243281083, 17917584875769380981, 6567855048072827864, 
   10058979677930685797, 261990629196180980, 15545545222502100247, 
   9763915986634603195, 18120739430186802670, 13667047141898767107, 
   10599999215673950809, 9003564495858566340, 6925777830179380976, 
   13018781064844957037, 6307223673752924881, 8755488869986667520, 
   11540223081419160852, 9078683803106405295, 13667684721226420124, 
   12694632716362536868, 9742375968326566343, 13379024920745070934, 
   15360846756826198573, 1540850557177502847, 1297170926274444599, 
   2343743919292885264, 9782818856816347691, 11622441186866100343, 
   9544658805159426176, 16658388327940428651, 6134524725883231056, 
   16632517074277275071, 12836363006501267725, 6561246262498444310, 
   4555648370727138748, 7086923657754074247, 2923303482586962634]

/-- The interpolant through `(C5_domain, C5_values)`: what
`Polynomial::interpolate` returns on the seventy points. -/
def C5_f : List BF :=
  [1, 2378164042796763771, 2286357666592899431, 3368547582642064257,
   5697762063046951012, 11725271562351026930, 14919878804370436428, 9585884958687688150,
   15698718971069008506, 11710865162489493157, 6220725637352104835, 11762232622714188007,
   11255517694042414124, 5576548508976614048, 3688767637844754241, 16560834072140356530,
   11274575720470061157, 10224453718605393187, 979803021313524388, 18296899455836875004,
   10086935957511347654, 15572888689759838077, 8081820796798538618, 10912522421549684420,
   6843119830661792558, 16191647238459629659, 2960182573799624333, 12124539200459071291,
   1547089357995171008, 6484664654058566425, 8377198881822354642, 11612868624496479156,
   2231184722771206950, 11984580244525563442, 5914426041243281083, 17917584875769380981,
   6567855048072827864, 10058979677930685797, 261990629196180980, 15545545222502100247,
   9763915986634603195, 18120739430186802670, 13667047141898767107, 10599999215673950809,
   9003564495858566340, 6925777830179380976, 13018781064844957037, 6307223673752924881,
   8755488869986667520, 11540223081419160852, 9078683803106405295, 13667684721226420124,
   12694632716362536868, 9742375968326566343, 13379024920745070934, 15360846756826198573,
   1540850557177502847, 1297170926274444599, 2343743919292885264, 9782818856816347691,
   11622441186866100343, 9544658805159426176, 16658388327940428651, 6134524725883231056,
   16632517074277275071, 12836363006501267725, 6561246262498444310, 4555648370727138748,
   7086923657754074247, 2923303482586962634]

set_option maxRecDepth 400000 in
set_option maxHeartbeats 12000000 in
theorem C5_phase1 :
    (List.range 35).foldl C5_step (List.replicate 70 0) = C5_mid := by
  decide

set_option maxRecDepth 400000 in
set_option maxHeartbeats 12000000 in
theorem C5_phase2 :
    (List.range 35).foldl (fun acc x => C5_step acc (35 + x)) C5_mid = C5_f := by
  decide

theorem C5_lagrange :
    lagrange_interpolate BFRoots C5_domain C5_values = C5_f := by
  rw [lagrange_interpolate_unfold BFRoots C5_domain C5_values C5_z C5_z_eq]
  show (List.range 70).foldl C5_step (List.replicate 70 0) = C5_f
  have hsplit : List.range 70
      = List.range 35 ++ (List.range 35).map (fun x => 35 + x) := by
    rw [← List.range_add]
  rw [hsplit, List.foldl_append, C5_phase1, List.foldl_map]
  exact C5_phase2

theorem C5_dispatch :
    interpolate BFRoots C5_domain C5_values
      = some (lagrange_interpolate BFRoots C5_domain C5_values) := rfl

theorem C5_interpolant :
    interpolate BFRoots C5_domain C5_values = some C5_f := by
  rw [C5_dispatch, C5_lagrange]

set_option maxRecDepth 400000 in
set_option maxHeartbeats 12000000 in
theorem C5_reeval :
    batch_evaluate BFRoots C5_f C5_domain = some C5_wrong := by
  decide

set_option maxRecDepth 400000 in
/-- C5 (counterexample): interpolation through seventy pairwise-distinct
Goldilocks points followed by batch evaluation over the same domain does not
return the interpolated values.  The interpolant has degree 69, so the
recursive split of `batch_evaluate` reaches two 17-point sub-domains with
`69 ≥ 4·17`, which triggers the reduce-first branch.  For the sub-domain
containing the point 0, the chunk zerofier has constant coefficient zero, its
`structured_multiple` loses the factor `X` (the reversal trick divides out
the zerofier's zero root), and stage two of `fast_reduce` reduces by a
polynomial that is not a multiple of the modulus; the value reported at the
point 0 is wrong. -/
theorem C5_round_trip_diverges :
    (interpolate BFRoots C5_domain C5_values).bind
      (fun f => batch_evaluate BFRoots f C5_domain) = some C5_wrong ∧
    C5_wrong ≠ C5_values := by
  refine ⟨?_, by decide⟩
  rw [C5_interpolant, Option.some_bind]
  exact C5_reeval

/-! Correctness of the schoolbook division, towards claim C6. -/

theorem toPoly_trim (p : List F) : toPoly (trim p) = toPoly p := by
  apply Polynomial.ext
  intro k
  rw [coeff_toPoly, coeff_toPoly, getD_trim]

theorem toPoly_replicate_zero (k : ℕ) : toPoly (List.replicate k (0 : F)) = 0 := by
  rw [toPoly_eq_zero_iff]
  intro n
  exact getD_replicate_zero k n

theorem toPoly_poly_add (x y : List F) :
    toPoly (poly_add x y) = toPoly x + toPoly y := by
  apply Polynomial.ext
  intro k
  rw [coeff_toPoly, getD_poly_add, Polynomial.coeff_add, coeff_toPoly, coeff_toPoly]

theorem toPoly_append_singleton (l : List F) (x : F) :
    toPoly (l ++ [x]) = toPoly l + Polynomial.C x * Polynomial.X ^ l.length := by
  apply Polynomial.ext
  intro k
  rw [coeff_toPoly, Polynomial.coeff_add, coeff_toPoly,
    Polynomial.coeff_C_mul, Polynomial.coeff_X_pow]
  rcases Nat.lt_trichotomy k l.length with h | h | h
  · rw [List.getD_append _ _ _ _ h, if_neg (by omega)]
    simp
  · subst h
    rw [List.getD_append_right _ _ _ _ (le_refl _), Nat.sub_self,
      List.getD_eq_default _ _ (le_refl _), if_pos rfl]
    simp
  · have h1 : (l ++ [x]).getD k 0 = 0 :=
      List.getD_eq_default _ _ (by simp only [List.length_append, List.length_singleton]; omega)
    have h2 : l.getD k 0 = 0 := List.getD_eq_default _ _ (by omega)
    rw [h1, h2, if_neg (by omega)]
    simp

theorem getLastD_eq_getD_last (l : List F) (h : l ≠ []) :
    l.getLastD 0 = l.getD (l.length - 1) 0 := by
  have hpos : 0 < l.length := List.length_pos.mpr h
  have h2 : l.getD (l.length - 1) 0 = l.getLast h := by
    rw [List.getLast_eq_getElem, List.getD_eq_getElem _ _ (by omega)]
  have h3 : l.getLastD 0 = l.getLast h := by
    conv_lhs => rw [← List.dropLast_append_getLast h]
    rw [List.getLastD_concat]
  rw [h3]
  exact h2.symm

theorem degree_le_length (p : List F) : degree p ≤ (p.length : ℤ) - 1 := by
  rw [degree_def]
  have := trim_length_le p
  omega

theorem getD_dropLast (p : List F) (k : ℕ) :
    p.dropLast.getD k 0 = if k < p.length - 1 then p.getD k 0 else 0 := by
  rw [List.dropLast_eq_take, getD_take]

/-- One division step removes the remainder's top coefficient and subtracts
the corresponding multiple of the divisor: algebraically,
`rem = B · C qc · X^(|rem| - |B|) + rem₁` with `qc` the emitted quotient
coefficient. -/
theorem divStep_spec (blcinv : F) (B : List F) (hBne : B ≠ [])
    (hinv : B.getLastD 0 * blcinv = 1)
    (rq rem : List F) (hlen : B.length ≤ rem.length) :
    ∃ rem1, divStep blcinv B (rq, rem) = (rq ++ [rem.getLastD 0 * blcinv], rem1) ∧
      rem1.length = rem.length - 1 ∧
      toPoly rem = toPoly B * Polynomial.C (rem.getLastD 0 * blcinv) *
        Polynomial.X ^ (rem.length - B.length) + toPoly rem1 := by
  have hBpos : 0 < B.length := List.length_pos.mpr hBne
  have hrempos : 0 < rem.length := lt_of_lt_of_le hBpos hlen
  have hremne : rem ≠ [] := by
    intro h
    rw [h] at hrempos
    simp at hrempos
  have hBlast : B.getLastD 0 = B.getD (B.length - 1) 0 := getLastD_eq_getD_last B hBne
  have hlcqc : rem.getLastD 0 = rem.getLastD 0 * blcinv * B.getD (B.length - 1) 0 := by
    rw [← hBlast]
    calc rem.getLastD 0 = rem.getLastD 0 * (B.getLastD 0 * blcinv) := by rw [hinv, mul_one]
      _ = rem.getLastD 0 * blcinv * B.getLastD 0 := by ring
  have hsplit : rem.dropLast ++ [rem.getLast hremne] = rem :=
    List.dropLast_append_getLast hremne
  have hlast_eq : rem.getLast hremne = rem.getLastD 0 := by
    conv_rhs => rw [← hsplit]
    rw [List.getLastD_concat]
  have htop : toPoly rem = toPoly rem.dropLast +
      Polynomial.C (rem.getLastD 0) * Polynomial.X ^ (rem.length - 1) := by
    conv_lhs => rw [← hsplit]
    rw [toPoly_append_singleton, hlast_eq, List.length_dropLast]
  by_cases hqc0 : rem.getLastD 0 * blcinv = 0
  · refine ⟨rem.dropLast, ?_, List.length_dropLast rem, ?_⟩
    · simp only [divStep]
      rw [if_pos hqc0]
    · have hlc0 : rem.getLastD 0 = 0 := by
        rw [hlcqc, hqc0, zero_mul]
      rw [htop, hlc0]
      simp
  · refine ⟨(List.range rem.dropLast.length).map (fun p =>
        if rem.dropLast.length - (B.length - 1) ≤ p then
          rem.dropLast.getD p 0 - rem.getLastD 0 * blcinv *
            B.getD (B.length - 1 - 1 - (rem.dropLast.length - 1 - p)) 0
        else rem.dropLast.getD p 0), ?_, ?_, ?_⟩
    · simp only [divStep]
      rw [if_neg hqc0]
    · rw [List.length_map, List.length_range, List.length_dropLast]
    · apply Polynomial.ext
      intro k
      rw [htop, Polynomial.coeff_add, Polynomial.coeff_add, coeff_toPoly, coeff_toPoly,
        Polynomial.coeff_C_mul, Polynomial.coeff_X_pow,
        Polynomial.coeff_mul_X_pow', Polynomial.coeff_mul_C, coeff_toPoly,
        getD_map_range]
      simp only [List.length_dropLast]
      rcases Nat.lt_trichotomy k (rem.length - 1) with hk | hk | hk
      · rw [if_neg (show ¬(k = rem.length - 1) from by omega), mul_zero, add_zero,
          if_pos hk]
        by_cases hks : rem.length - B.length ≤ k
        · rw [if_pos hks,
            if_pos (show rem.length - 1 - (B.length - 1) ≤ k from by omega)]
          have hidx : B.length - 1 - 1 - (rem.length - 1 - 1 - k)
              = k - (rem.length - B.length) := by omega
          rw [hidx, getD_dropLast, if_pos hk]
          ring
        · rw [if_neg hks,
            if_neg (show ¬(rem.length - 1 - (B.length - 1) ≤ k) from by omega),
            getD_dropLast, if_pos hk]
          simp
      · rw [if_pos hk, mul_one,
          if_pos (show rem.length - B.length ≤ k from by omega),
          if_neg (show ¬(k < rem.length - 1) from by omega), add_zero,
          getD_dropLast, if_neg (show ¬(k < rem.length - 1) from by omega)]
        have hidx : k - (rem.length - B.length) = B.length - 1 := by omega
        rw [hidx, zero_add]
        conv_lhs => rw [hlcqc]
        ring
      · rw [if_neg (show ¬(k = rem.length - 1) from by omega), mul_zero, add_zero,
          if_neg (show ¬(k < rem.length - 1) from by omega), add_zero,
          if_pos (show rem.length - B.length ≤ k from by omega),
          getD_dropLast, if_neg (show ¬(k < rem.length - 1) from by omega),
          List.getD_eq_default _ _
            (show B.length ≤ k - (rem.length - B.length) from by omega), zero_mul]

/-- The loop of `naive_divide`: running `n` steps from state `(rq, rem)`
appends `n` quotient coefficients and unwinds the remainder by `n` top
coefficients, preserving `rem = B · Q + rem'` where `Q` places the reversed
emitted coefficients at the powers `|rem| - |B|` downwards. -/
theorem divLoop_spec (blcinv : F) (B : List F) (hBne : B ≠ [])
    (hinv : B.getLastD 0 * blcinv = 1) :
    ∀ (n : ℕ) (rq rem : List F), B.length + n ≤ rem.length + 1 →
      ∃ qs rem', divLoop blcinv B n (rq, rem) = (rq ++ qs, rem') ∧
        qs.length = n ∧ rem'.length = rem.length - n ∧
        toPoly rem = toPoly B *
          toPoly (List.replicate (rem.length + 1 - B.length - n) 0 ++ qs.reverse)
          + toPoly rem' := by
  intro n
  induction n with
  | zero =>
      intro rq rem hlen
      refine ⟨[], rem, by rw [divLoop]; simp, rfl, by omega, ?_⟩
      rw [List.reverse_nil, List.append_nil, toPoly_replicate_zero, mul_zero, zero_add]
  | succ n ih =>
      intro rq rem hlen
      have hBpos : 0 < B.length := List.length_pos.mpr hBne
      obtain ⟨rem1, hstep, hlen1, halg⟩ :=
        divStep_spec blcinv B hBne hinv rq rem (by omega)
      obtain ⟨qs', rem'', hloop, hqslen, hlen'', halg'⟩ :=
        ih (rq ++ [rem.getLastD 0 * blcinv]) rem1 (by omega)
      refine ⟨rem.getLastD 0 * blcinv :: qs', rem'', ?_, ?_, ?_, ?_⟩
      · rw [divLoop, hstep, hloop, List.append_assoc]
        rfl
      · simp [hqslen]
      · omega
      · have hrev : (rem.getLastD 0 * blcinv :: qs').reverse
            = qs'.reverse ++ [rem.getLastD 0 * blcinv] := by simp
        have hpadlen : rem.length + 1 - B.length - (n + 1) + qs'.reverse.length
            = rem.length - B.length := by
          simp only [List.length_reverse, hqslen]
          omega
        have hpads : rem1.length + 1 - B.length - n
            = rem.length + 1 - B.length - (n + 1) := by omega
        rw [hrev, ← List.append_assoc, toPoly_append_singleton]
        rw [List.length_append, List.length_replicate, hpadlen]
        rw [halg, halg', hpads]
        ring

/-- Source-level correctness of `naive_divide` for any non-zero divisor. -/
theorem naive_divide_spec (a b : List F) (hb : 0 ≤ degree b) :
    ∃ q r, naive_divide a b = some (q, r) ∧
      toPoly a = toPoly q * toPoly b + toPoly r ∧
      degree r < degree b ∧
      (degree a < degree b → q = [] ∧ r = a) := by
  rw [naive_divide, if_neg (by omega)]
  by_cases hcase : degree a - degree b < 0
  · rw [if_pos hcase]
    refine ⟨[], a, rfl, ?_, by omega, fun _ => ⟨rfl, rfl⟩⟩
    rw [toPoly_nil, zero_mul, zero_add]
  · rw [if_neg hcase]
    push_neg at hcase
    have hBne : trim b ≠ [] := by
      intro h
      rw [degree_def] at hb
      rw [h] at hb
      simp at hb
    have hAlen : ((trim a).length : ℤ) = degree a + 1 := by
      rw [degree_def]
      push_cast
      ring
    have hBlen : ((trim b).length : ℤ) = degree b + 1 := by
      rw [degree_def]
      push_cast
      ring
    have hblc : b.getD (degree b).toNat 0 = (trim b).getLastD 0 := by
      rw [getLastD_eq_getD_last (trim b) hBne, getD_trim]
      congr 1
      omega
    have hlcne : (trim b).getLastD 0 ≠ 0 := by
      have h3 : (trim b).getLastD 0 = (trim b).getLast hBne := by
        conv_lhs => rw [← List.dropLast_append_getLast hBne]
        rw [List.getLastD_concat]
      rw [h3]
      exact trim_getLast_ne_zero b hBne
    have hinv : (trim b).getLastD 0 * (b.getD (degree b).toNat 0)⁻¹ = 1 := by
      rw [hblc]
      exact mul_inv_cancel₀ hlcne
    obtain ⟨qs, rem', hloop, hqslen, hremlen, halg⟩ :=
      divLoop_spec (b.getD (degree b).toNat 0)⁻¹ (trim b) hBne hinv
        ((degree a - degree b).toNat + 1) [] (trim a) (by omega)
    refine ⟨qs.reverse, rem', ?_, ?_, ?_, ?_⟩
    · show some ((divLoop (b.getD (degree b).toNat 0)⁻¹ (trim b)
          ((degree a - degree b).toNat + 1) ([], trim a)).1.reverse,
          (divLoop (b.getD (degree b).toNat 0)⁻¹ (trim b)
            ((degree a - degree b).toNat + 1) ([], trim a)).2) = some (qs.reverse, rem')
      rw [hloop]
      simp
    · have hpad : (trim a).length + 1 - (trim b).length
          - ((degree a - degree b).toNat + 1) = 0 := by
        omega
      rw [hpad, List.replicate_zero, List.nil_append] at halg
      calc toPoly a = toPoly (trim a) := (toPoly_trim a).symm
        _ = toPoly (trim b) * toPoly qs.reverse + toPoly rem' := halg
        _ = toPoly qs.reverse * toPoly b + toPoly rem' := by
            rw [toPoly_trim]
            ring
    · have h1 : degree rem' ≤ (rem'.length : ℤ) - 1 := degree_le_length rem'
      omega
    · intro h
      exact absurd h (by omega)

set_option maxRecDepth 100000 in
/-- C6: the contract "for every polynomial `a` and every non-zero `b`,
`divide(a, b)` returns `(q, r)` with `a == q*b + r` and
`degree r < degree b`, and when `degree b` exceeds `degree a` the quotient is
zero and the remainder equals `a`" holds on the schoolbook path taken whenever
`degree a ≤ FAST_DIVIDE_THRESHOLD = 1000`, but fails for `divide` as a whole:
for the non-zero divisor `X` (coefficient vector `[0, 1, 0]`) and the dividend
`X^1001`, the dispatch enters `fast_divide`, which tries to invert the zero
constant coefficient of the reversed divisor inside
`formal_power_series_inverse_newton` and panics (modelled as `none`), so no
`(q, r)` is returned although the divisor is non-zero. -/
theorem C6_divide_contract :
    (∀ (G : Type) [Field G] [DecidableEq G] (R : ℕ → G) (a b : List G),
        0 ≤ degree b → degree a ≤ 1000 →
        ∃ q r, divide R a b = some (q, r) ∧
          polyEq a (poly_add (naive_multiply q b) r) = true ∧
          degree r < degree b ∧
          (degree a < degree b → q = [] ∧ r = a)) ∧
    0 ≤ degree ([0, 1, 0] : List (ZMod 17)) ∧
    divide R17 (List.replicate 1001 (0 : ZMod 17) ++ [1]) [0, 1, 0] = none := by
  refine ⟨?_, by decide, by decide⟩
  intro G _ _ R a b hb hle
  rw [divide, if_neg (by omega)]
  obtain ⟨q, r, hsome, halg, hdeg, hsmall⟩ := naive_divide_spec a b hb
  exact ⟨q, r, hsome,
    polyEq_of_toPoly_eq (by rw [toPoly_poly_add, toPoly_naive_multiply, halg]),
    hdeg, hsmall⟩

end TwentyFirst
